import Mathlib

/-!
# phpdocyaml: the transform engine

A shallow embedding of `transform` (src/transform.go), of the input and
output types it works on (src/extract.go, src/transform.go), and of the page
path computed by `write` (src/main.go).

Modelling conventions.

* A Go `string` is a Lean `String`.  `strings.HasPrefix`,
  `strings.TrimPrefix` and `<` are defined on the character list of the
  string; Go works on bytes, which gives the same answer on well-formed UTF-8
  text.  The slice `path[1:]` of `write` cuts a byte off, so from that point
  on the path is the list of its bytes (`utf8`), each a `Nat` below 256.
* A Go pointer that may be nil (`*docblock`, `*class`, ...) is an `Option`.
* A Go slice is a `List`; `append` adds at the end.
* `map[string]*page` is an association list without repeated keys; the order
  of its entries is the insertion order and carries no meaning in Go.
* `return nil, nil, err` is `Except.error`; `return pages, toc, nil` is
  `Except.ok`.
* Writes to `os.Stderr` / `os.Stdout` (the warnings) do not influence the
  returned values and are left out.
* Lean keywords cannot be used as names: Go `class` is `classDecl`, Go
  `syntax` is `itemSyntax`, Go `example` is `codeExample`, a field `Type` is
  `Type_`.
-/

namespace Phpdocyaml

/-! ## Input types (src/extract.go) -/

/-- Go `tag`. -/
structure tag where
  Name : String := ""
  Description : String := ""
  Variable : String := ""
  Type_ : String := ""
  LinkOrRef : String := ""
  Version : String := ""
  MethodName : String := ""
  deriving DecidableEq, Repr

/-- Go `docblock`. -/
structure docblock where
  Line : Int := 0
  Description : String := ""
  LongDescription : String := ""
  Tags : List tag := []
  deriving DecidableEq, Repr

/-- Go `namespaceAlias`. -/
structure namespaceAlias where
  Name : String := ""
  deriving DecidableEq, Repr

/-- Go `property`. -/
structure property where
  Namespace : String := ""
  Line : String := ""
  Visibility : String := ""
  Name : String := ""
  FullName : String := ""
  Docblock : Option docblock := none
  Default : String := ""
  InheritedFrom : String := ""
  deriving DecidableEq, Repr

/-- Go `argument`. -/
structure argument where
  Line : String := ""
  ByReference : Bool := false
  Name : String := ""
  Type_ : String := ""
  Default : String := ""
  deriving DecidableEq, Repr

/-- Go `method`. -/
structure method where
  Final : Bool := false
  Abstract : Bool := false
  Static : Bool := false
  Namespace : String := ""
  Line : String := ""
  Visibility : String := ""
  Name : String := ""
  FullName : String := ""
  Value : String := ""
  Docblock : Option docblock := none
  Arguments : List argument := []
  InheritedFrom : String := ""
  deriving DecidableEq, Repr

/-- Go `fn`. -/
structure fn where
  Namespace : String := ""
  Line : String := ""
  Package : String := ""
  Name : String := ""
  FullName : String := ""
  Docblock : Option docblock := none
  Arguments : List argument := []
  deriving DecidableEq, Repr

/-- Go `constant`. -/
structure constant where
  Namespace : String := ""
  Line : String := ""
  Visibility : String := ""
  Name : String := ""
  FullName : String := ""
  Value : String := ""
  Docblock : Option docblock := none
  InheritedFrom : String := ""
  deriving DecidableEq, Repr

/-- Go `class`. -/
structure classDecl where
  Final : Bool := false
  Abstract : Bool := false
  Namespace : String := ""
  Line : String := ""
  Name : String := ""
  FullName : String := ""
  Docblock : Option docblock := none
  Implements : List String := []
  Extends : String := ""
  Properties : List property := []
  Methods : List method := []
  Constants : List constant := []
  deriving DecidableEq, Repr

/-- Go `iface`. -/
structure iface where
  Namespace : String := ""
  Line : String := ""
  Package : String := ""
  Name : String := ""
  FullName : String := ""
  Docblock : Option docblock := none
  Methods : List method := []
  Constants : List constant := []
  Extends : String := ""
  deriving DecidableEq, Repr

/-- Go `trait`. -/
structure trait where
  Namespace : String := ""
  Line : String := ""
  Name : String := ""
  FullName : String := ""
  Docblock : Option docblock := none
  Properties : List property := []
  Methods : List method := []
  deriving DecidableEq, Repr

/-- Go `file`. -/
structure file where
  Path : String := ""
  Hash : String := ""
  Docblock : Option docblock := none
  NamespaceAliases : List namespaceAlias := []
  Tags : List tag := []
  Class : Option classDecl := none
  Interface : Option iface := none
  Trait : Option trait := none
  Constants : List constant := []
  Functions : List fn := []
  deriving DecidableEq, Repr

/-- Go `projectNamespace` (a tree of namespaces; `transform` never reads it). -/
inductive projectNamespace where
  | mk (Name FullName : String) (ProjectNamespaces : List projectNamespace)

/-- Go `project`. -/
structure project where
  Files : List file := []
  Name : String := ""
  ProjectNamespaces : List projectNamespace := []

/-! ## Output types (src/transform.go) -/

/-- Go `tocItem`; the fields are `UID`, `Name`, `Items`, `Href`, `Status`. -/
inductive tocItem where
  | mk (UID Name : String) (Items : List tocItem) (Href Status : String)

/-- Field `UID` of a `tocItem`. -/
def tocItem.UID : tocItem → String
  | .mk u _ _ _ _ => u

/-- Field `Name` of a `tocItem`. -/
def tocItem.Name : tocItem → String
  | .mk _ n _ _ _ => n

/-- Field `Items` of a `tocItem`. -/
def tocItem.Items : tocItem → List tocItem
  | .mk _ _ is _ _ => is

/-- Field `Href` of a `tocItem`. -/
def tocItem.Href : tocItem → String
  | .mk _ _ _ h _ => h

/-- Field `Status` of a `tocItem`. -/
def tocItem.Status : tocItem → String
  | .mk _ _ _ _ s => s

/-- Go `tableOfContents`. -/
abbrev tableOfContents := List tocItem

/-- Go `child`. -/
abbrev child := String

/-- Go `syntax`. -/
structure itemSyntax where
  Content : String := ""
  deriving DecidableEq, Repr

/-- Go `example`. -/
structure codeExample where
  Content : String := ""
  Name : String := ""
  deriving DecidableEq, Repr

/-- Go `docfxProperty`. -/
structure docfxProperty where
  Type_ : String := ""
  Name : String := ""
  Description : String := ""
  deriving DecidableEq, Repr

/-- Go `parameter`. -/
structure parameter where
  Type_ : String := ""
  Name : String := ""
  Description : String := ""
  deriving DecidableEq, Repr

/-- Go `item`. -/
structure item where
  UID : String := ""
  Name : String := ""
  ID : String := ""
  Summary : String := ""
  Parent : String := ""
  Type_ : String := ""
  Langs : List String := []
  Syntax : itemSyntax := {}
  Examples : List codeExample := []
  Children : List child := []
  AltLink : String := ""
  Status : String := ""
  Implements : List String := []
  InheritedMembers : List String := []
  Properties : List docfxProperty := []
  Parameters : List parameter := []
  deriving DecidableEq, Repr

/-- Go `page`. -/
structure page where
  Items : List item := []
  References : List item := []
  deriving DecidableEq, Repr

/-! ## Strings -/

/-- Go `strings.HasPrefix(s, pre)`. -/
def HasPrefix (s pre : String) : Bool :=
  pre.data.isPrefixOf s.data

/-- Go `strings.TrimPrefix(s, pre)`: `s` without the leading `pre` when it
has it, `s` itself otherwise. -/
def TrimPrefix (s pre : String) : String :=
  if HasPrefix s pre then String.mk (s.data.drop pre.data.length) else s

/-- Lexicographic comparison of two character lists. -/
def lessChars : List Char → List Char → Bool
  | _, [] => false
  | [], _ :: _ => true
  | a :: as, b :: bs => decide (a.toNat < b.toNat) || (decide (a = b) && lessChars as bs)

/-- Go `a < b` on strings: the lexicographic order (on the bytes in Go, on the
characters here; UTF-8 keeps the order of the code points). -/
def stringLess (a b : String) : Bool :=
  lessChars a.data b.data

/-! ## Docblock accessors (src/extract.go) -/

/-- Go `(*docblock).summary`. -/
def docblock.summary : Option docblock → String
  | none => ""
  | some d =>
    let s := d.Description
    if d.LongDescription ≠ "" then
      (if d.Description ≠ "" then s ++ "\n\n" else s) ++ d.LongDescription
    else s

/-- The loop of `(*docblock).status` over the tags. -/
def statusLoop : List tag → String
  | [] => ""
  | t :: ts => if t.Name = "deprecated" then "deprecated" else statusLoop ts

/-- Go `(*docblock).status`. -/
def docblock.status : Option docblock → String
  | none => ""
  | some d => statusLoop d.Tags

/-- The loop of `(*docblock).param` over the tags. -/
def paramLoop (name : String) : List tag → String
  | [] => ""
  | t :: ts =>
    if t.Name = "param" ∧ t.Variable = name then t.Description else paramLoop name ts

/-- Go `(*docblock).param`. -/
def docblock.param (d : Option docblock) (name : String) : String :=
  match d with
  | none => ""
  | some d => paramLoop name d.Tags

/-! ## The transform engine (src/transform.go) -/

/-- Go `onlyPHP`. -/
def onlyPHP : List String := ["php"]

/-- Go `arguments`: one parameter per argument, in order. -/
def arguments (m : method) : List parameter :=
  m.Arguments.foldl
    (fun params a =>
      params ++ [{ Name := a.Name, Type_ := a.Type_,
                   Description := docblock.param m.Docblock a.Name }])
    []

/-- The two errors `transform` can return:
`fmt.Errorf("found %q which does not belong to namespace %q", uid, rootNamespace)`
and `fmt.Errorf("found duplicate UID: %q", uid)`. -/
inductive transformError where
  | scope (uid rootNamespace : String)
  | duplicateUID (uid : String)
  deriving DecidableEq, Repr

/-- The pages map, `map[string]*page`. -/
abbrev pageMap := List (String × page)

/-- Go `_, ok := pages[uid]`. -/
def pageMap.has (m : pageMap) (uid : String) : Bool :=
  m.any (fun kv => kv.1 = uid)

/-- Go `pages[uid]`. -/
def pageMap.get (m : pageMap) (uid : String) : Option page :=
  match m with
  | [] => none
  | kv :: rest => if kv.1 = uid then some kv.2 else pageMap.get rest uid

/-- Go `pages[uid] = pg`: replaces the entry of `uid` when there is one, adds
an entry otherwise. -/
def pageMap.set (m : pageMap) (uid : String) (pg : page) : pageMap :=
  match m with
  | [] => [(uid, pg)]
  | kv :: rest => if kv.1 = uid then (uid, pg) :: rest else kv :: pageMap.set rest uid pg

/-- Go `len(pages)`. -/
def pageMap.len (m : pageMap) : Nat := m.length

/-- The keys of the pages map. -/
def pageMap.keys (m : pageMap) : List String := m.map Prod.fst

/-- What the body of a member loop updates: the type-level item (`classItem`,
`traitItem`, `interfaceItem`; the page holds a pointer to it as its first
item) and the items appended to the page after it. -/
structure pageBuild where
  owner : item
  members : List item := []
  deriving DecidableEq, Repr

/-- The page under construction: `page.addItem` put the type-level item first. -/
def pageBuild.toPage (b : pageBuild) : page :=
  { Items := b.owner :: b.members }

/-- The literal `mItem := &item{...}` of the method loops; `uid` is the UID of
the owning type. -/
def methodItem (uid : String) (m : method) : item :=
  { UID := m.FullName, Name := m.Name, ID := m.Name, Parent := uid,
    Summary := docblock.summary m.Docblock, Langs := onlyPHP, Type_ := "method",
    Status := docblock.status m.Docblock, Parameters := arguments m }

/-- The literal `cItem := &item{...}` of the constant loops; `uid` is the UID
of the owning type. -/
def constantItem (uid : String) (c : constant) : item :=
  { UID := c.FullName, Name := c.Name, ID := c.Name, Parent := uid,
    Syntax := { Content := c.Value }, Summary := docblock.summary c.Docblock,
    Langs := onlyPHP, Type_ := "constant", Status := docblock.status c.Docblock }

/-- The literal `docfxProperty{...}` appended for a property that is not
inherited: the type is the one of the first tag of the docblock. -/
def propertyEntry (p : property) : docfxProperty :=
  let t := match p.Docblock with
    | none => ""
    | some d => match d.Tags with
      | [] => ""
      | t0 :: _ => t0.Type_
  let desc := match p.Docblock with
    | none => ""
    | some d => docblock.summary (some d)
  { Name := p.Name, Type_ := t, Description := desc }

/-- The literal `classItem := &item{...}`. -/
def classItem (c : classDecl) : item :=
  { UID := c.FullName, Name := c.Name, ID := c.Name, Summary := docblock.summary c.Docblock,
    Langs := onlyPHP, Type_ := "class", Status := docblock.status c.Docblock,
    Implements := c.Implements }

/-- The literal `traitItem := &item{...}`. -/
def traitItem (t : trait) : item :=
  { UID := t.FullName, Name := t.Name, ID := t.Name, Summary := docblock.summary t.Docblock,
    Langs := onlyPHP, Type_ := "trait", Status := docblock.status t.Docblock }

/-- The literal `interfaceItem := &item{...}`. -/
def interfaceItem (i : iface) : item :=
  { UID := i.FullName, Name := i.Name, ID := i.Name, Summary := docblock.summary i.Docblock,
    Langs := onlyPHP, Type_ := "interface", Status := docblock.status i.Docblock }

/-- Body of `for _, p := range f.Class.Properties`. -/
def propertyStep (b : pageBuild) (p : property) : pageBuild :=
  if p.InheritedFrom ≠ "" then
    { b with owner := { b.owner with InheritedMembers := b.owner.InheritedMembers ++ [p.FullName] } }
  else
    { b with owner := { b.owner with Properties := b.owner.Properties ++ [propertyEntry p] } }

/-- Body of `for _, m := range ... .Methods` (the same in the three branches);
`uid` is the UID of the owning type. -/
def methodStep (uid : String) (b : pageBuild) (m : method) : pageBuild :=
  if m.InheritedFrom ≠ "" then
    { b with owner := { b.owner with InheritedMembers := b.owner.InheritedMembers ++ [m.FullName] } }
  else
    let mUID := m.FullName
    { owner := { b.owner with Children := b.owner.Children ++ [mUID] },
      members := b.members ++ [methodItem uid m] }

/-- Body of `for _, c := range ... .Constants` (the same for classes and
interfaces); `uid` is the UID of the owning type. -/
def constantStep (uid : String) (b : pageBuild) (c : constant) : pageBuild :=
  if c.InheritedFrom ≠ "" then
    { b with owner := { b.owner with InheritedMembers := b.owner.InheritedMembers ++ [c.FullName] } }
  else
    let cUID := c.FullName
    { owner := { b.owner with Children := b.owner.Children ++ [cUID] },
      members := b.members ++ [constantItem uid c] }

/-- The state of the loop over the files: `pages` and `tocRoot.Items`. -/
structure transformState where
  pages : pageMap := []
  tocItems : List tocItem := []

/-- The branch `if f.Class != nil` of the loop body. -/
def classStep (rootNamespace : String) (c : classDecl) (st : transformState) :
    Except transformError transformState :=
  let uid := c.FullName
  if !HasPrefix uid rootNamespace then
    .error (.scope uid rootNamespace)
  else
    let tocItems := st.tocItems ++
      [tocItem.mk uid (TrimPrefix uid rootNamespace) [] "" (docblock.status c.Docblock)]
    let classItem : item := classItem c
    if st.pages.has uid then
      .error (.duplicateUID uid)
    else
      let b : pageBuild := { owner := classItem }
      let b := c.Properties.foldl propertyStep b
      let b := c.Methods.foldl (methodStep uid) b
      let b := c.Constants.foldl (constantStep uid) b
      .ok { pages := st.pages.set uid b.toPage, tocItems := tocItems }

/-- The branch `if f.Trait != nil` of the loop body. -/
def traitStep (rootNamespace : String) (t : trait) (st : transformState) :
    Except transformError transformState :=
  let uid := t.FullName
  if !HasPrefix uid rootNamespace then
    .error (.scope uid rootNamespace)
  else
    let tocItems := st.tocItems ++
      [tocItem.mk uid (TrimPrefix uid rootNamespace) [] "" (docblock.status t.Docblock)]
    let traitItem : item := traitItem t
    if st.pages.has uid then
      .error (.duplicateUID uid)
    else
      let b : pageBuild := { owner := traitItem }
      let b := t.Methods.foldl (methodStep uid) b
      .ok { pages := st.pages.set uid b.toPage, tocItems := tocItems }

/-- The branch `if f.Interface != nil` of the loop body. -/
def interfaceStep (rootNamespace : String) (i : iface) (st : transformState) :
    Except transformError transformState :=
  let uid := i.FullName
  if !HasPrefix uid rootNamespace then
    .error (.scope uid rootNamespace)
  else
    let tocItems := st.tocItems ++
      [tocItem.mk uid (TrimPrefix uid rootNamespace) [] "" (docblock.status i.Docblock)]
    let interfaceItem : item := interfaceItem i
    if st.pages.has uid then
      .error (.duplicateUID uid)
    else
      let b : pageBuild := { owner := interfaceItem }
      let b := i.Methods.foldl (methodStep uid) b
      let b := i.Constants.foldl (constantStep uid) b
      .ok { pages := st.pages.set i.FullName b.toPage, tocItems := tocItems }

/-- The body of `for _, f := range p.Files` for a file that is not skipped:
the class branch, then the trait branch, then the interface branch. -/
def fileStep (rootNamespace : String) (f : file) (st : transformState) :
    Except transformError transformState := do
  let st ← match f.Class with
    | none => pure st
    | some c => classStep rootNamespace c st
  let st ← match f.Trait with
    | none => pure st
    | some t => traitStep rootNamespace t st
  match f.Interface with
    | none => pure st
    | some i => interfaceStep rootNamespace i st

/-- The loop `for _, f := range p.Files`, with its `continue` for the files
under "tests" and its early `return` on an error. -/
def transformFiles (rootNamespace : String) :
    List file → transformState → Except transformError transformState
  | [], st => .ok st
  | f :: fs, st =>
    if HasPrefix f.Path "tests" then
      transformFiles rootNamespace fs st
    else
      match fileStep rootNamespace f st with
      | .error e => .error e
      | .ok st1 => transformFiles rootNamespace fs st1

/-- Insertion of `x` into a list sorted by UID: before the first entry with a
greater UID. -/
def insertByUID (x : tocItem) : List tocItem → List tocItem
  | [] => [x]
  | y :: ys => if stringLess x.UID y.UID then x :: y :: ys else y :: insertByUID x ys

/-- Go `sort.Slice(tocRoot.Items, func(i, j) bool { return Items[i].UID < Items[j].UID })`.
`sort.Slice` is some comparison sort with the given `less`; every such sort
returns the same list when the UIDs are pairwise different, which is the case
whenever `transform` gets this far. -/
def sortByUID (l : List tocItem) : List tocItem :=
  l.foldl (fun acc x => insertByUID x acc) []

/-- Go `transform`. -/
def transform (p : project) (rootNamespace : String) :
    Except transformError (pageMap × tableOfContents) :=
  match transformFiles rootNamespace p.Files {} with
  | .error e => .error e
  | .ok st => .ok (st.pages, [tocItem.mk "" rootNamespace (sortByUID st.tocItems) "" ""])


/-! ## The page paths of `write` (src/main.go) -/

/-- The bytes of one character in a Go string: its UTF-8 encoding. -/
def utf8Char (c : Char) : List Nat :=
  let n := c.toNat
  if n < 0x80 then [n]
  else if n < 0x800 then [0xC0 + n / 0x40, 0x80 + n % 0x40]
  else if n < 0x10000 then [0xE0 + n / 0x1000, 0x80 + n / 0x40 % 0x40, 0x80 + n % 0x40]
  else [0xF0 + n / 0x40000, 0x80 + n / 0x1000 % 0x40, 0x80 + n / 0x40 % 0x40, 0x80 + n % 0x40]

/-- The bytes of the Go string that holds the text `s`. -/
def utf8 (s : String) : List Nat :=
  (s.data.map utf8Char).flatten

/-- Go `strings.ReplaceAll(s, "\\", ".")` on the bytes of `s`: every byte 92
(the backslash) becomes the byte 46 (the dot). -/
def replaceBackslashes (bs : List Nat) : List Nat :=
  bs.map (fun b => if b = 92 then 46 else b)

/-- Go `path[1:]`: the bytes of the string without the first byte; on the
empty string the slice is out of range and the program panics (`none`). -/
def sliceFromOne (s : String) : Option (List Nat) :=
  match utf8 s with
  | [] => none
  | _ :: rest => some rest

/-- The first statement of the loop body of `write`: the file path of the page
keyed `path`, as a sequence of bytes.  `join` stands for `filepath.Join` of
the standard library; `none` is the panic of `path[1:]`. -/
def pagePath (join : List Nat → List Nat → List Nat) (outDir ns path : String) :
    Option (List Nat) :=
  if path = ns then
    some (utf8 "index.yml")
  else
    let path := TrimPrefix path ns
    match sliceFromOne path with
    | none => none
    | some rest => some (join (utf8 outDir) (replaceBackslashes rest ++ utf8 ".yml"))

/-! ## Vocabulary of the statements -/

/-- The FullNames of the types a file declares, in the order in which the loop
body handles them: class, trait, interface. -/
def fileTypeNames (f : file) : List String :=
  (f.Class.map (fun c => c.FullName)).toList ++
  (f.Trait.map (fun t => t.FullName)).toList ++
  (f.Interface.map (fun i => i.FullName)).toList

/-- The FullNames of all classes, traits and interfaces declared in the files
whose `Path` does not start with "tests", in processing order; a FullName
declared twice is listed twice. -/
def typeNames : List file → List String
  | [] => []
  | f :: fs =>
    if HasPrefix f.Path "tests" then typeNames fs else fileTypeNames f ++ typeNames fs

/-- What one type declaration contributes: its UID, its TOC entry and its
finished page. -/
structure typeEntry where
  uid : String
  toc : tocItem
  pg : page

/-- The contribution of a class. -/
def classEntry (rootNamespace : String) (c : classDecl) : typeEntry :=
  { uid := c.FullName,
    toc := tocItem.mk c.FullName (TrimPrefix c.FullName rootNamespace) [] ""
      (docblock.status c.Docblock),
    pg := (c.Constants.foldl (constantStep c.FullName)
            (c.Methods.foldl (methodStep c.FullName)
              (c.Properties.foldl propertyStep { owner := classItem c }))).toPage }

/-- The contribution of a trait. -/
def traitEntry (rootNamespace : String) (t : trait) : typeEntry :=
  { uid := t.FullName,
    toc := tocItem.mk t.FullName (TrimPrefix t.FullName rootNamespace) [] ""
      (docblock.status t.Docblock),
    pg := (t.Methods.foldl (methodStep t.FullName) { owner := traitItem t }).toPage }

/-- The contribution of an interface. -/
def interfaceEntry (rootNamespace : String) (i : iface) : typeEntry :=
  { uid := i.FullName,
    toc := tocItem.mk i.FullName (TrimPrefix i.FullName rootNamespace) [] ""
      (docblock.status i.Docblock),
    pg := (i.Constants.foldl (constantStep i.FullName)
            (i.Methods.foldl (methodStep i.FullName) { owner := interfaceItem i })).toPage }

/-- The contributions of one file, in processing order. -/
def fileEntries (rootNamespace : String) (f : file) : List typeEntry :=
  (f.Class.map (classEntry rootNamespace)).toList ++
  (f.Trait.map (traitEntry rootNamespace)).toList ++
  (f.Interface.map (interfaceEntry rootNamespace)).toList

/-- The contributions of the files that are not skipped, in processing order. -/
def allEntries (rootNamespace : String) : List file → List typeEntry
  | [] => []
  | f :: fs =>
    if HasPrefix f.Path "tests" then allEntries rootNamespace fs
    else fileEntries rootNamespace f ++ allEntries rootNamespace fs

/-- One type declaration handled by the loop body: scope check, duplicate
check, then the new page and the new TOC entry. -/
def processEntry (rootNamespace : String) (e : typeEntry) (st : transformState) :
    Except transformError transformState :=
  if !HasPrefix e.uid rootNamespace then .error (.scope e.uid rootNamespace)
  else if st.pages.has e.uid then .error (.duplicateUID e.uid)
  else .ok { pages := st.pages.set e.uid e.pg, tocItems := st.tocItems ++ [e.toc] }

/-- A sequence of type declarations handled one after the other, stopping at
the first error. -/
def processEntries (rootNamespace : String) :
    List typeEntry → transformState → Except transformError transformState
  | [], st => .ok st
  | e :: es, st =>
    match processEntry rootNamespace e st with
    | .error err => .error err
    | .ok st1 => processEntries rootNamespace es st1

/-- The UIDs of all items of all pages, type-level items and member items
together. -/
def allItemUIDs (pages : pageMap) : List String :=
  (pages.map (fun kv => kv.2.Items.map (fun it => it.UID))).flatten

/-- The properties declared on the type itself (empty `InheritedFrom`). -/
def ownProperties (ps : List property) : List property :=
  ps.filter (fun p => p.InheritedFrom = "")

/-- The inherited properties (non-empty `InheritedFrom`). -/
def inheritedProperties (ps : List property) : List property :=
  ps.filter (fun p => p.InheritedFrom ≠ "")

/-- The methods declared on the type itself (empty `InheritedFrom`). -/
def ownMethods (ms : List method) : List method :=
  ms.filter (fun m => m.InheritedFrom = "")

/-- The inherited methods (non-empty `InheritedFrom`). -/
def inheritedMethods (ms : List method) : List method :=
  ms.filter (fun m => m.InheritedFrom ≠ "")

/-- The constants declared on the type itself (empty `InheritedFrom`). -/
def ownConstants (cs : List constant) : List constant :=
  cs.filter (fun c => c.InheritedFrom = "")

/-- The inherited constants (non-empty `InheritedFrom`). -/
def inheritedConstants (cs : List constant) : List constant :=
  cs.filter (fun c => c.InheritedFrom ≠ "")

/-! ## Concrete inputs -/

/-- A project with a skipped test file (out of scope, never looked at), a class
with a docblock, own and inherited members, free constants and functions, a
trait and an interface. -/
def sampleProject : project :=
  { Files :=
      [ { Path := "tests/FooTest.php",
          Class := some { Name := "FooTest", FullName := "\\Other\\FooTest" } },
        { Path := "src/Foo.php",
          Constants := [{ Name := "FREE", FullName := "\\NS\\FREE", Value := "1" }],
          Functions := [{ Name := "helper", FullName := "\\NS\\helper()" }],
          Class := some
            { Name := "Foo", FullName := "\\NS\\Foo",
              Docblock := some { Description := "A foo.", Tags := [{ Name := "deprecated" }] },
              Implements := ["\\NS\\Fooable"],
              Properties :=
                [ { Name := "size", FullName := "\\NS\\Foo::$size",
                    Docblock := some { Description := "The size.",
                                       Tags := [{ Name := "var", Type_ := "int" }] } },
                  { Name := "id", FullName := "\\NS\\Base::$id", InheritedFrom := "\\NS\\Base" } ],
              Methods :=
                [ { Name := "run", FullName := "\\NS\\Foo::run()",
                    Arguments := [{ Name := "$n", Type_ := "int" }],
                    Docblock := some
                      { Description := "Runs.",
                        Tags := [{ Name := "param", Variable := "$n", Description := "count" }] } },
                  { Name := "bar", FullName := "\\NS\\Foo::bar()",
                    InheritedFrom := "\\NS\\Base::bar",
                    Docblock := some { Description := "Inherited, with a docblock." } } ],
              Constants :=
                [ { Name := "MAX", FullName := "\\NS\\Foo::MAX", Value := "10" },
                  { Name := "MIN", FullName := "\\NS\\Base::MIN", Value := "0",
                    InheritedFrom := "\\NS\\Base" } ] } },
        { Path := "src/Shared.php",
          Trait := some
            { Name := "Shared", FullName := "\\NS\\Shared",
              Methods := [ { Name := "share", FullName := "\\NS\\Shared::share()" },
                           { Name := "old", FullName := "\\NS\\Base::old()",
                             InheritedFrom := "\\NS\\Base" } ] } },
        { Path := "src/Fooable.php",
          Interface := some
            { Name := "Fooable", FullName := "\\NS\\Fooable",
              Methods := [{ Name := "foo", FullName := "\\NS\\Fooable::foo()" }],
              Constants := [{ Name := "K", FullName := "\\NS\\Root::K", Value := "2",
                              InheritedFrom := "\\NS\\Root" }] } } ] }

/-- A file that declares nothing but a class with the given FullName. -/
def classFile (path name fullName : String) : file :=
  { Path := path, Class := some { Name := name, FullName := fullName } }

/-- Scenario C: the class `\Other\Foo` under the root namespace `\NS`. -/
def scenarioC : project :=
  { Files := [classFile "src/Foo.php" "Foo" "\\Other\\Foo"] }

/-- Scenario D: two files that both declare the class `\NS\Foo`. -/
def scenarioD : project :=
  { Files := [classFile "src/Foo.php" "Foo" "\\NS\\Foo", classFile "lib/Foo.php" "Foo" "\\NS\\Foo"] }

/-- Four files declaring the classes `\NS\A`, `\NS\B`, `\NS\B`, `\NS\A`. -/
def twoPairs : project :=
  { Files := [classFile "a1.php" "A" "\\NS\\A", classFile "b1.php" "B" "\\NS\\B",
              classFile "b2.php" "B" "\\NS\\B", classFile "a2.php" "A" "\\NS\\A"] }

/-- The pages map `transform` returns for `sampleProject` under `\NS`. -/
def samplePages : pageMap :=
  [ ("\\NS\\Foo",
      { Items :=
          [ { UID := "\\NS\\Foo", Name := "Foo", ID := "Foo", Summary := "A foo.",
              Type_ := "class", Langs := ["php"],
              Children := ["\\NS\\Foo::run()", "\\NS\\Foo::MAX"],
              Status := "deprecated", Implements := ["\\NS\\Fooable"],
              InheritedMembers := ["\\NS\\Base::$id", "\\NS\\Foo::bar()", "\\NS\\Base::MIN"],
              Properties := [{ Type_ := "int", Name := "size", Description := "The size." }] },
            { UID := "\\NS\\Foo::run()", Name := "run", ID := "run", Summary := "Runs.",
              Parent := "\\NS\\Foo", Type_ := "method", Langs := ["php"],
              Parameters := [{ Type_ := "int", Name := "$n", Description := "count" }] },
            { UID := "\\NS\\Foo::MAX", Name := "MAX", ID := "MAX", Parent := "\\NS\\Foo",
              Type_ := "constant", Langs := ["php"], Syntax := { Content := "10" } } ] }),
    ("\\NS\\Shared",
      { Items :=
          [ { UID := "\\NS\\Shared", Name := "Shared", ID := "Shared", Type_ := "trait",
              Langs := ["php"], Children := ["\\NS\\Shared::share()"],
              InheritedMembers := ["\\NS\\Base::old()"] },
            { UID := "\\NS\\Shared::share()", Name := "share", ID := "share",
              Parent := "\\NS\\Shared", Type_ := "method", Langs := ["php"] } ] }),
    ("\\NS\\Fooable",
      { Items :=
          [ { UID := "\\NS\\Fooable", Name := "Fooable", ID := "Fooable", Type_ := "interface",
              Langs := ["php"], Children := ["\\NS\\Fooable::foo()"],
              InheritedMembers := ["\\NS\\Root::K"] },
            { UID := "\\NS\\Fooable::foo()", Name := "foo", ID := "foo",
              Parent := "\\NS\\Fooable", Type_ := "method", Langs := ["php"] } ] }) ]

/-- The TOC `transform` returns for `sampleProject` under `\NS`. -/
def sampleToc : tableOfContents :=
  [ tocItem.mk "" "\\NS"
      [ tocItem.mk "\\NS\\Foo" "\\Foo" [] "" "deprecated",
        tocItem.mk "\\NS\\Fooable" "\\Fooable" [] "" "",
        tocItem.mk "\\NS\\Shared" "\\Shared" [] "" "" ]
      "" "" ]

/-- A class with two methods of its own that carry the same FullName. -/
def repeatedMember : project :=
  { Files :=
      [ { Path := "src/Foo.php",
          Class := some
            { Name := "Foo", FullName := "\\NS\\Foo",
              Methods := [ { Name := "run", FullName := "\\NS\\Foo::run()" },
                           { Name := "run", FullName := "\\NS\\Foo::run()" } ] } } ] }

/-- A class in scope with a method of its own whose FullName is outside the
root namespace. -/
def foreignMember : project :=
  { Files :=
      [ { Path := "src/Foo.php",
          Class := some
            { Name := "Foo", FullName := "\\NS\\Foo",
              Methods := [ { Name := "run", FullName := "\\Other\\Util::run()" } ] } } ] }

/-- The UIDs of the type-level items: the first item of every page. -/
def typeItemUIDs (pages : pageMap) : List String :=
  (pages.map (fun kv => (kv.2.Items.take 1).map (fun it => it.UID))).flatten

/-- A trait with one inherited property and no methods. -/
def propertyTrait : trait :=
  { Name := "Shared", FullName := "\\NS\\Shared",
    Properties := [{ Name := "id", FullName := "\\NS\\Base::$id", InheritedFrom := "\\NS\\Base" }] }

/-- A project whose only type is `propertyTrait`. -/
def traitProject : project :=
  { Files := [{ Path := "src/Shared.php", Trait := some propertyTrait }] }

/-- Scenario B: the method `bar`, inherited from `\NS\Base::bar`. -/
def scenarioBMethod : method :=
  { Name := "bar", FullName := "\\NS\\Foo::bar()", InheritedFrom := "\\NS\\Base::bar" }

/-- Scenario B: the class `\NS\Foo` with the method `bar`. -/
def scenarioBClass : classDecl :=
  { Name := "Foo", FullName := "\\NS\\Foo", Methods := [scenarioBMethod] }

/-- Scenario B: the file declaring the class. -/
def scenarioBFile : file :=
  { Path := "src/Foo.php", Class := some scenarioBClass }

/-- Scenario B: a project whose only type is `scenarioBClass`. -/
def scenarioB : project :=
  { Files := [scenarioBFile] }

/-- The pages map `transform` returns for Scenario B under `\NS`. -/
def scenarioBPages : pageMap :=
  [ ("\\NS\\Foo",
      { Items := [ { UID := "\\NS\\Foo", Name := "Foo", ID := "Foo", Type_ := "class",
                     Langs := ["php"], InheritedMembers := ["\\NS\\Foo::bar()"] } ] }) ]

/-- The TOC `transform` returns for Scenario B under `\NS`. -/
def scenarioBToc : tableOfContents :=
  [ tocItem.mk "" "\\NS" [tocItem.mk "\\NS\\Foo" "\\Foo" [] "" ""] "" "" ]

/-- The description the spec gives to the parameter of an argument: the
Description of the first docblock tag whose Name is "param" and whose Variable
is the name of the argument; empty when there is no such tag or no docblock. -/
def firstParamDescription (m : method) (name : String) : String :=
  match m.Docblock with
  | none => ""
  | some d =>
    match d.Tags.find? (fun t => decide (t.Name = "param" ∧ t.Variable = name)) with
    | none => ""
    | some t => t.Description

/-- A docblock with a short description only. -/
def shortDocblock : docblock := { Description := "Short." }

/-- A docblock with a long description only. -/
def longDocblock : docblock := { LongDescription := "Long text." }

/-- A docblock with both descriptions. -/
def fullDocblock : docblock := { Description := "Short.", LongDescription := "Long text." }

/-- A docblock whose only tag is a `param` tag. -/
def paramDocblock : docblock :=
  { Description := "Runs.", Tags := [{ Name := "param", Variable := "$n", Description := "count" }] }

/-- Scenario A: one class `\NS\Foo` without members and without docblock. -/
def scenarioA : project :=
  { Files := [classFile "src/Foo.php" "Foo" "\\NS\\Foo"] }

/-- One class in a sub-namespace of the root: `\NS\Sub\Foo`. -/
def nestedProject : project :=
  { Files := [classFile "src/Sub/Foo.php" "Foo" "\\NS\\Sub\\Foo"] }

/-- What `filepath.Join` returns on Unix for a clean, non-empty directory and
a clean, non-empty relative path: the two joined by a slash (byte 47). -/
def joinSlash (dir name : List Nat) : List Nat :=
  dir ++ [47] ++ name

/-- The text `s` with every backslash replaced by a dot. -/
def dotted (s : String) : String :=
  String.mk (s.data.map (fun c => if c = '\\' then '.' else c))

/-- A property whose docblock has two tags with different types. -/
def twoTagProperty : property :=
  { Name := "size", FullName := "\\NS\\Foo::$size",
    Docblock := some
      { Description := "The size.",
        Tags := [{ Name := "var", Type_ := "int" }, { Name := "var", Type_ := "string" }] } }

/-- A class whose properties are `twoTagProperty`, a property without
docblock, a property whose docblock has no tag, and an inherited property. -/
def propertyClass : classDecl :=
  { Name := "Foo", FullName := "\\NS\\Foo",
    Properties :=
      [ twoTagProperty,
        { Name := "bare", FullName := "\\NS\\Foo::$bare" },
        { Name := "plain", FullName := "\\NS\\Foo::$plain",
          Docblock := some { LongDescription := "No tags here." } },
        { Name := "id", FullName := "\\NS\\Base::$id", InheritedFrom := "\\NS\\Base",
          Docblock := some { Tags := [{ Name := "var", Type_ := "int" }] } } ] }

/-- The file declaring `propertyClass`. -/
def propertyFile : file :=
  { Path := "src/Foo.php", Class := some propertyClass }

/-- A project whose only type is `propertyClass`. -/
def propertyProject : project :=
  { Files := [propertyFile] }

/-- The pages map `transform` returns for `propertyProject` under `\NS`. -/
def propertyPages : pageMap :=
  [ ("\\NS\\Foo",
      { Items :=
          [ { UID := "\\NS\\Foo", Name := "Foo", ID := "Foo", Type_ := "class", Langs := ["php"],
              InheritedMembers := ["\\NS\\Base::$id"],
              Properties :=
                [ { Type_ := "int", Name := "size", Description := "The size." },
                  { Type_ := "", Name := "bare", Description := "" },
                  { Type_ := "", Name := "plain", Description := "No tags here." } ] } ] }) ]

/-- The TOC `transform` returns for `propertyProject` under `\NS`. -/
def propertyToc : tableOfContents :=
  [ tocItem.mk "" "\\NS" [tocItem.mk "\\NS\\Foo" "\\Foo" [] "" ""] "" "" ]

/-- The pages map `transform` returns for `nestedProject` under `\NS`. -/
def nestedPages : pageMap :=
  [ ("\\NS\\Sub\\Foo",
      { Items := [ { UID := "\\NS\\Sub\\Foo", Name := "Foo", ID := "Foo", Type_ := "class",
                     Langs := ["php"] } ] }) ]

/-- The TOC `transform` returns for `nestedProject` under `\NS`. -/
def nestedToc : tableOfContents :=
  [ tocItem.mk "" "\\NS" [tocItem.mk "\\NS\\Sub\\Foo" "\\Sub\\Foo" [] "" ""] "" "" ]

/-- One class whose FullName is the root namespace `\NS` itself. -/
def rootClassProject : project :=
  { Files := [classFile "src/NS.php" "NS" "\\NS"] }

/-- The pages map `transform` returns for `rootClassProject` under `\NS`. -/
def rootClassPages : pageMap :=
  [ ("\\NS",
      { Items := [ { UID := "\\NS", Name := "NS", ID := "NS", Type_ := "class",
                     Langs := ["php"] } ] }) ]

/-- The TOC `transform` returns for `rootClassProject` under `\NS`. -/
def rootClassToc : tableOfContents :=
  [ tocItem.mk "" "\\NS" [tocItem.mk "\\NS" "" [] "" ""] "" "" ]

/-- A class `\NSX\Foo`: its namespace `\NSX` is not `\NS` and not below it,
but its FullName starts with the string `\NS`. -/
def siblingProject : project :=
  { Files := [classFile "src/Foo.php" "Foo" "\\NSX\\Foo"] }

/-- The pages map `transform` returns for `siblingProject` under `\NS`. -/
def siblingPages : pageMap :=
  [ ("\\NSX\\Foo",
      { Items := [ { UID := "\\NSX\\Foo", Name := "Foo", ID := "Foo", Type_ := "class",
                     Langs := ["php"] } ] }) ]

/-- The TOC `transform` returns for `siblingProject` under `\NS`. -/
def siblingToc : tableOfContents :=
  [ tocItem.mk "" "\\NS" [tocItem.mk "\\NSX\\Foo" "X\\Foo" [] "" ""] "" "" ]

/-- The project `sampleProject` with its files in the opposite order. -/
def sampleReversed : project :=
  { sampleProject with Files := sampleProject.Files.reverse }

/-! ## Lemmas: strings and the pages map -/

theorem hasPrefix_iff (s pre : String) : HasPrefix s pre = true ↔ pre.data <+: s.data := by
  unfold HasPrefix
  exact List.isPrefixOf_iff_prefix

theorem pageMap_has_iff (m : pageMap) (k : String) : m.has k = true ↔ k ∈ m.keys := by
  unfold pageMap.has pageMap.keys
  simp only [List.any_eq_true, decide_eq_true_eq, List.mem_map]

theorem pageMap_has_false_iff (m : pageMap) (k : String) : m.has k = false ↔ k ∉ m.keys := by
  rw [← pageMap_has_iff]; simp

theorem pageMap_set_fresh (m : pageMap) (k : String) (pg : page) (h : k ∉ m.keys) :
    m.set k pg = m ++ [(k, pg)] := by
  induction m with
  | nil => rfl
  | cons kv rest ih =>
    simp only [pageMap.keys, List.map_cons, List.mem_cons, not_or] at h
    have h2 : ¬ kv.1 = k := fun e => h.1 e.symm
    simp only [pageMap.set, h2, if_false, List.cons_append]
    rw [ih h.2]

theorem pageMap_get_of_mem (m : pageMap) (k : String) (pg : page)
    (nd : m.keys.Nodup) (h : (k, pg) ∈ m) : m.get k = some pg := by
  induction m with
  | nil => cases h
  | cons kv rest ih =>
    simp only [pageMap.keys, List.map_cons, List.nodup_cons] at nd
    rcases List.mem_cons.1 h with rfl | h
    · simp [pageMap.get]
    · have : ¬ kv.1 = k := by
        intro e
        apply nd.1
        rw [e]
        exact List.mem_map.2 ⟨(k, pg), h, rfl⟩
      simp only [pageMap.get, this, if_false]
      exact ih nd.2 h

/-! ## Lemmas: the loop over the files as a sequence of type declarations -/

theorem classStep_eq (ns : String) (c : classDecl) (st : transformState) :
    classStep ns c st = processEntry ns (classEntry ns c) st := by
  unfold classStep processEntry classEntry
  rfl

theorem traitStep_eq (ns : String) (t : trait) (st : transformState) :
    traitStep ns t st = processEntry ns (traitEntry ns t) st := by
  unfold traitStep processEntry traitEntry
  rfl

theorem interfaceStep_eq (ns : String) (i : iface) (st : transformState) :
    interfaceStep ns i st = processEntry ns (interfaceEntry ns i) st := by
  unfold interfaceStep processEntry interfaceEntry
  rfl

theorem processEntries_append (ns : String) (a b : List typeEntry) (st : transformState) :
    processEntries ns (a ++ b) st =
      match processEntries ns a st with
      | .error err => .error err
      | .ok st1 => processEntries ns b st1 := by
  induction a generalizing st with
  | nil => rfl
  | cons e es ih =>
    simp only [List.cons_append, processEntries]
    cases processEntry ns e st with
    | error err => rfl
    | ok st1 => exact ih st1

theorem fileStep_eq (ns : String) (f : file) (st : transformState) :
    fileStep ns f st = processEntries ns (fileEntries ns f) st := by
  unfold fileStep fileEntries
  cases hc : f.Class <;> cases ht : f.Trait <;> cases hi : f.Interface <;>
    simp only [Option.map, Option.toList, List.append_nil, List.nil_append, List.cons_append,
      processEntries, classStep_eq, traitStep_eq, interfaceStep_eq, bind, pure,
      Except.bind, Except.pure] <;>
    (repeat' split) <;> simp_all

theorem transformFiles_eq (ns : String) (fs : List file) (st : transformState) :
    transformFiles ns fs st = processEntries ns (allEntries ns fs) st := by
  induction fs generalizing st with
  | nil => rfl
  | cons f fs ih =>
    unfold transformFiles allEntries
    by_cases h : HasPrefix f.Path "tests" = true
    · simp only [h, if_true]; exact ih st
    · simp only [h, if_false, Bool.false_eq_true]
      rw [processEntries_append, fileStep_eq]
      cases processEntries ns (fileEntries ns f) st with
      | error err => rfl
      | ok st1 => exact ih st1

theorem fileEntries_uid (ns : String) (f : file) :
    (fileEntries ns f).map (fun e => e.uid) = fileTypeNames f := by
  unfold fileEntries fileTypeNames
  cases f.Class <;> cases f.Trait <;> cases f.Interface <;> rfl

theorem allEntries_uid (ns : String) (fs : List file) :
    (allEntries ns fs).map (fun e => e.uid) = typeNames fs := by
  induction fs with
  | nil => rfl
  | cons f fs ih =>
    unfold allEntries typeNames
    by_cases h : HasPrefix f.Path "tests" = true
    · simp only [h, if_true]; exact ih
    · simp only [h, if_false, Bool.false_eq_true, List.map_append, fileEntries_uid, ih]

/-! ## Lemmas: when a sequence of type declarations goes through -/

theorem processEntry_ok (ns : String) (e : typeEntry) (st : transformState)
    (hs : HasPrefix e.uid ns = true) (hf : e.uid ∉ st.pages.keys) :
    processEntry ns e st =
      .ok { pages := st.pages ++ [(e.uid, e.pg)], tocItems := st.tocItems ++ [e.toc] } := by
  have hf2 : st.pages.has e.uid = false := (pageMap_has_false_iff _ _).2 hf
  simp only [processEntry, hs, hf2, Bool.not_true, Bool.false_eq_true, if_false,
    pageMap_set_fresh _ _ _ hf]

theorem processEntry_ok_inv (ns : String) (e : typeEntry) (st st1 : transformState)
    (h : processEntry ns e st = .ok st1) :
    HasPrefix e.uid ns = true ∧ e.uid ∉ st.pages.keys := by
  unfold processEntry at h
  by_cases hs : HasPrefix e.uid ns = true
  · by_cases hf : st.pages.has e.uid = true
    · simp [hs, hf] at h
    · exact ⟨hs, fun hm => hf ((pageMap_has_iff _ _).2 hm)⟩
  · simp [hs] at h

theorem nodup_snoc_cons (ks ns : List String) (u : String) :
    ((ks ++ [u]) ++ ns).Nodup ↔ (ks ++ u :: ns).Nodup := by
  rw [List.append_assoc]; rfl

theorem processEntries_ok (ns : String) (es : List typeEntry) (st : transformState)
    (hs : ∀ e ∈ es, HasPrefix e.uid ns = true)
    (hnd : (st.pages.keys ++ es.map (fun e => e.uid)).Nodup) :
    processEntries ns es st =
      .ok { pages := st.pages ++ es.map (fun e => (e.uid, e.pg)),
            tocItems := st.tocItems ++ es.map (fun e => e.toc) } := by
  induction es generalizing st with
  | nil => simp [processEntries]
  | cons e es ih =>
    have hfresh : e.uid ∉ st.pages.keys := by
      intro hm
      have := (List.nodup_append.1 hnd).2.2
      exact this hm (by simp)
    rw [processEntries, processEntry_ok ns e st (hs e (by simp)) hfresh]
    simp only
    rw [ih _ (fun x hx => hs x (by simp [hx]))]
    · simp
    · simp only [pageMap.keys, List.map_append, List.map_cons, List.map_nil] at hnd ⊢
      rw [nodup_snoc_cons]
      exact hnd

theorem processEntries_ok_inv (ns : String) (es : List typeEntry) (st st1 : transformState)
    (h : processEntries ns es st = .ok st1) (hk : st.pages.keys.Nodup) :
    (∀ e ∈ es, HasPrefix e.uid ns = true) ∧
      (st.pages.keys ++ es.map (fun e => e.uid)).Nodup := by
  induction es generalizing st with
  | nil => simpa using hk
  | cons e es ih =>
    rw [processEntries] at h
    cases hstep : processEntry ns e st with
    | error err => rw [hstep] at h; cases h
    | ok st2 =>
      rw [hstep] at h
      simp only at h
      obtain ⟨hs, hf⟩ := processEntry_ok_inv ns e st st2 hstep
      rw [processEntry_ok ns e st hs hf] at hstep
      cases hstep
      have hk2 : (st.pages.keys ++ [e.uid]).Nodup := by
        rw [List.nodup_append]
        refine ⟨hk, by simp, ?_⟩
        intro a ha hb
        simp only [List.mem_singleton] at hb
        subst hb
        exact hf ha
      have := ih _ h (by simpa [pageMap.keys] using hk2)
      refine ⟨?_, ?_⟩
      · intro x hx
        rcases List.mem_cons.1 hx with rfl | hx
        · exact hs
        · exact this.1 x hx
      · have h2 := this.2
        simp only [pageMap.keys, List.map_append, List.map_cons, List.map_nil] at h2 ⊢
        rw [nodup_snoc_cons] at h2
        exact h2

theorem processEntries_ok_scope (ns : String) (es : List typeEntry) (st st1 : transformState)
    (h : processEntries ns es st = .ok st1) : ∀ e ∈ es, HasPrefix e.uid ns = true := by
  induction es generalizing st with
  | nil => intro e he; cases he
  | cons e es ih =>
    rw [processEntries] at h
    cases hstep : processEntry ns e st with
    | error err => rw [hstep] at h; cases h
    | ok st2 =>
      rw [hstep] at h
      intro x hx
      rcases List.mem_cons.1 hx with rfl | hx
      · exact (processEntry_ok_inv ns _ st st2 hstep).1
      · exact ih st2 h x hx

/-! ## Lemmas: when a sequence of type declarations is rejected -/

theorem keys_snoc (m : pageMap) (u : String) (pg : page) :
    pageMap.keys (m ++ [(u, pg)]) = m.keys ++ [u] := by
  simp [pageMap.keys]

theorem keys_append_entries (m : pageMap) (es : List typeEntry) :
    pageMap.keys (m ++ es.map (fun e => (e.uid, e.pg))) = m.keys ++ es.map (fun e => e.uid) := by
  simp [pageMap.keys, Function.comp_def]

theorem processEntries_scope (ns : String) (es : List typeEntry) (st : transformState)
    (hnd : (st.pages.keys ++ es.map (fun e => e.uid)).Nodup)
    (hbad : ∃ e ∈ es, HasPrefix e.uid ns = false) :
    ∃ u ∈ es.map (fun e => e.uid),
      HasPrefix u ns = false ∧ processEntries ns es st = .error (.scope u ns) := by
  induction es generalizing st with
  | nil => obtain ⟨e, he, _⟩ := hbad; cases he
  | cons e es ih =>
    by_cases hs : HasPrefix e.uid ns = true
    · have hfresh : e.uid ∉ st.pages.keys := by
        intro hm
        exact (List.nodup_append.1 hnd).2.2 hm (by simp)
      have hbad2 : ∃ x ∈ es, HasPrefix x.uid ns = false := by
        obtain ⟨x, hx, hxs⟩ := hbad
        rcases List.mem_cons.1 hx with rfl | hx
        · rw [hs] at hxs; cases hxs
        · exact ⟨x, hx, hxs⟩
      have hnd2 : (pageMap.keys (st.pages ++ [(e.uid, e.pg)]) ++ es.map (fun e => e.uid)).Nodup := by
        rw [keys_snoc, nodup_snoc_cons]
        exact hnd
      obtain ⟨u, hu, hus, hr⟩ := ih
        { pages := st.pages ++ [(e.uid, e.pg)], tocItems := st.tocItems ++ [e.toc] } hnd2 hbad2
      refine ⟨u, by simp only [List.map_cons, List.mem_cons]; exact Or.inr hu, hus, ?_⟩
      rw [processEntries, processEntry_ok ns e st hs hfresh]
      exact hr
    · have hs2 : HasPrefix e.uid ns = false := by simpa using hs
      refine ⟨e.uid, by simp, hs2, ?_⟩
      simp [processEntries, processEntry, hs2]

theorem processEntries_dup (ns : String) (es : List typeEntry) (st : transformState)
    (hs : ∀ e ∈ es, HasPrefix e.uid ns = true) (hk : st.pages.keys.Nodup)
    (hnd : ¬ (st.pages.keys ++ es.map (fun e => e.uid)).Nodup) :
    ∃ es1 e es2, es = es1 ++ e :: es2 ∧
      e.uid ∈ st.pages.keys ++ es1.map (fun e => e.uid) ∧
      processEntries ns es st = .error (.duplicateUID e.uid) := by
  induction es generalizing st with
  | nil => exact absurd (by simpa using hk) hnd
  | cons e es ih =>
    have hse := hs e (by simp)
    by_cases hf : e.uid ∈ st.pages.keys
    · refine ⟨[], e, es, rfl, by simpa using hf, ?_⟩
      have : st.pages.has e.uid = true := (pageMap_has_iff _ _).2 hf
      simp [processEntries, processEntry, hse, this]
    · have hk2 : (pageMap.keys (st.pages ++ [(e.uid, e.pg)])).Nodup := by
        rw [keys_snoc, List.nodup_append]
        refine ⟨hk, by simp, ?_⟩
        intro a ha hb
        simp only [List.mem_singleton] at hb
        subst hb
        exact hf ha
      have hnd2 : ¬ (pageMap.keys (st.pages ++ [(e.uid, e.pg)]) ++
          es.map (fun e => e.uid)).Nodup := by
        rw [keys_snoc, nodup_snoc_cons]
        exact hnd
      obtain ⟨es1, x, es2, hsplit, hmem, hr⟩ := ih
        { pages := st.pages ++ [(e.uid, e.pg)], tocItems := st.tocItems ++ [e.toc] }
        (fun y hy => hs y (by simp [hy])) hk2 hnd2
      refine ⟨e :: es1, x, es2, by rw [hsplit]; rfl, ?_, ?_⟩
      · simp only [keys_snoc] at hmem
        simp only [List.map_cons, List.mem_append, List.mem_cons, List.mem_singleton] at hmem ⊢
        tauto
      · rw [processEntries, processEntry_ok ns e st hse hf]
        exact hr

theorem count_two_of_mem (l1 l2 : List String) (u : String) (h : u ∈ l1) :
    2 ≤ (l1 ++ u :: l2).count u := by
  have h1 : 0 < l1.count u := List.count_pos_iff.2 h
  rw [List.count_append, List.count_cons_self]
  omega

/-! ## Lemmas: the member loops in closed form -/

theorem foldl_propertyStep (ps : List property) (b : pageBuild) :
    ps.foldl propertyStep b =
      { owner := { b.owner with
          InheritedMembers := b.owner.InheritedMembers ++
            (inheritedProperties ps).map (fun p => p.FullName),
          Properties := b.owner.Properties ++ (ownProperties ps).map propertyEntry },
        members := b.members } := by
  induction ps generalizing b with
  | nil => simp [inheritedProperties, ownProperties]
  | cons p ps ih =>
    rw [List.foldl_cons, ih]
    by_cases h : p.InheritedFrom = "" <;>
      simp [propertyStep, inheritedProperties, ownProperties, List.filter_cons, h]

theorem foldl_methodStep (uid : String) (ms : List method) (b : pageBuild) :
    ms.foldl (methodStep uid) b =
      { owner := { b.owner with
          InheritedMembers := b.owner.InheritedMembers ++
            (inheritedMethods ms).map (fun m => m.FullName),
          Children := b.owner.Children ++ (ownMethods ms).map (fun m => m.FullName) },
        members := b.members ++ (ownMethods ms).map (methodItem uid) } := by
  induction ms generalizing b with
  | nil => simp [inheritedMethods, ownMethods]
  | cons m ms ih =>
    rw [List.foldl_cons, ih]
    by_cases h : m.InheritedFrom = "" <;>
      simp [methodStep, inheritedMethods, ownMethods, List.filter_cons, h]

theorem foldl_constantStep (uid : String) (cs : List constant) (b : pageBuild) :
    cs.foldl (constantStep uid) b =
      { owner := { b.owner with
          InheritedMembers := b.owner.InheritedMembers ++
            (inheritedConstants cs).map (fun c => c.FullName),
          Children := b.owner.Children ++ (ownConstants cs).map (fun c => c.FullName) },
        members := b.members ++ (ownConstants cs).map (constantItem uid) } := by
  induction cs generalizing b with
  | nil => simp [inheritedConstants, ownConstants]
  | cons c cs ih =>
    rw [List.foldl_cons, ih]
    by_cases h : c.InheritedFrom = "" <;>
      simp [constantStep, inheritedConstants, ownConstants, List.filter_cons, h]

theorem classEntry_pg (ns : String) (c : classDecl) :
    (classEntry ns c).pg =
      { Items :=
          { classItem c with
            InheritedMembers :=
              (inheritedProperties c.Properties).map (fun p => p.FullName) ++
              (inheritedMethods c.Methods).map (fun m => m.FullName) ++
              (inheritedConstants c.Constants).map (fun k => k.FullName),
            Children :=
              (ownMethods c.Methods).map (fun m => m.FullName) ++
              (ownConstants c.Constants).map (fun k => k.FullName),
            Properties := (ownProperties c.Properties).map propertyEntry } ::
          ((ownMethods c.Methods).map (methodItem c.FullName) ++
            (ownConstants c.Constants).map (constantItem c.FullName)) } := by
  simp [classEntry, foldl_propertyStep, foldl_methodStep, foldl_constantStep,
    pageBuild.toPage, classItem]

theorem traitEntry_pg (ns : String) (t : trait) :
    (traitEntry ns t).pg =
      { Items :=
          { traitItem t with
            InheritedMembers := (inheritedMethods t.Methods).map (fun m => m.FullName),
            Children := (ownMethods t.Methods).map (fun m => m.FullName) } ::
          (ownMethods t.Methods).map (methodItem t.FullName) } := by
  simp [traitEntry, foldl_methodStep, pageBuild.toPage, traitItem]

theorem interfaceEntry_pg (ns : String) (i : iface) :
    (interfaceEntry ns i).pg =
      { Items :=
          { interfaceItem i with
            InheritedMembers :=
              (inheritedMethods i.Methods).map (fun m => m.FullName) ++
              (inheritedConstants i.Constants).map (fun k => k.FullName),
            Children :=
              (ownMethods i.Methods).map (fun m => m.FullName) ++
              (ownConstants i.Constants).map (fun k => k.FullName) } ::
          ((ownMethods i.Methods).map (methodItem i.FullName) ++
            (ownConstants i.Constants).map (constantItem i.FullName)) } := by
  simp [interfaceEntry, foldl_methodStep, foldl_constantStep, pageBuild.toPage, interfaceItem]

/-! ## Lemmas: `transform` as a whole -/

theorem mem_fileEntries (ns : String) (f : file) (e : typeEntry) :
    e ∈ fileEntries ns f ↔
      (∃ c, f.Class = some c ∧ e = classEntry ns c) ∨
      (∃ t, f.Trait = some t ∧ e = traitEntry ns t) ∨
      (∃ i, f.Interface = some i ∧ e = interfaceEntry ns i) := by
  unfold fileEntries
  cases f.Class <;> cases f.Trait <;> cases f.Interface <;> simp

theorem mem_allEntries (ns : String) (fs : List file) (e : typeEntry) :
    e ∈ allEntries ns fs ↔
      ∃ f ∈ fs, HasPrefix f.Path "tests" = false ∧ e ∈ fileEntries ns f := by
  induction fs with
  | nil => simp [allEntries]
  | cons f fs ih =>
    unfold allEntries
    by_cases h : HasPrefix f.Path "tests" = true
    · simp only [h, if_true, ih, List.mem_cons]
      constructor
      · rintro ⟨g, hg, hs, he⟩; exact ⟨g, Or.inr hg, hs, he⟩
      · rintro ⟨g, hg | hg, hs, he⟩
        · subst hg; rw [h] at hs; cases hs
        · exact ⟨g, hg, hs, he⟩
    · have h2 : HasPrefix f.Path "tests" = false := by simpa using h
      simp only [h2, Bool.false_eq_true, if_false, List.mem_append, ih, List.mem_cons]
      constructor
      · rintro (he | ⟨g, hg, hs, he⟩)
        · exact ⟨f, Or.inl rfl, h2, he⟩
        · exact ⟨g, Or.inr hg, hs, he⟩
      · rintro ⟨g, hg | hg, hs, he⟩
        · subst hg; exact Or.inl he
        · exact Or.inr ⟨g, hg, hs, he⟩

theorem insertByUID_perm (x : tocItem) (l : List tocItem) :
    (insertByUID x l).Perm (x :: l) := by
  induction l with
  | nil => exact List.Perm.refl _
  | cons y ys ih =>
    unfold insertByUID
    split
    · exact List.Perm.refl _
    · exact ((List.Perm.cons y ih).trans (List.Perm.swap x y ys))

theorem foldl_insertByUID_perm (l acc : List tocItem) :
    (l.foldl (fun acc x => insertByUID x acc) acc).Perm (acc ++ l) := by
  induction l generalizing acc with
  | nil => simp
  | cons x xs ih =>
    rw [List.foldl_cons]
    refine (ih (insertByUID x acc)).trans ?_
    refine ((insertByUID_perm x acc).append_right xs).trans ?_
    exact (List.perm_middle).symm

theorem sortByUID_perm (l : List tocItem) : (sortByUID l).Perm l := by
  simpa [sortByUID] using foldl_insertByUID_perm l []

theorem transform_ok_of (p : project) (ns : String)
    (hs : ∀ n ∈ typeNames p.Files, HasPrefix n ns = true)
    (hnd : (typeNames p.Files).Nodup) :
    transform p ns =
      .ok ((allEntries ns p.Files).map (fun e => (e.uid, e.pg)),
           [tocItem.mk "" ns (sortByUID ((allEntries ns p.Files).map (fun e => e.toc))) "" ""]) := by
  unfold transform
  rw [transformFiles_eq, processEntries_ok]
  · simp
  · intro e he
    apply hs
    rw [← allEntries_uid ns]
    exact List.mem_map.2 ⟨e, he, rfl⟩
  · rw [allEntries_uid]
    simpa [pageMap.keys] using hnd

theorem transform_ok_inv (p : project) (ns : String) (r : pageMap × tableOfContents)
    (h : transform p ns = .ok r) :
    (∀ n ∈ typeNames p.Files, HasPrefix n ns = true) ∧ (typeNames p.Files).Nodup := by
  unfold transform at h
  rw [transformFiles_eq] at h
  cases hr : processEntries ns (allEntries ns p.Files) {} with
  | error err => rw [hr] at h; cases h
  | ok st =>
    obtain ⟨h1, h2⟩ := processEntries_ok_inv ns _ _ st hr (by simp [pageMap.keys])
    rw [allEntries_uid] at h2
    refine ⟨?_, by simpa [pageMap.keys] using h2⟩
    intro n hn
    rw [← allEntries_uid ns] at hn
    obtain ⟨e, he, rfl⟩ := List.mem_map.1 hn
    exact h1 e he

theorem transform_ok_eq (p : project) (ns : String) (pages : pageMap) (toc : tableOfContents)
    (h : transform p ns = .ok (pages, toc)) :
    pages = (allEntries ns p.Files).map (fun e => (e.uid, e.pg)) ∧
    toc = [tocItem.mk "" ns (sortByUID ((allEntries ns p.Files).map (fun e => e.toc))) "" ""] := by
  obtain ⟨hs, hnd⟩ := transform_ok_inv p ns _ h
  rw [transform_ok_of p ns hs hnd] at h
  injection h with h
  injection h with h1 h2
  exact ⟨h1.symm, h2.symm⟩

theorem entryPages_keys (es : List typeEntry) :
    pageMap.keys (es.map (fun e => (e.uid, e.pg))) = es.map (fun e => e.uid) := by
  simp [pageMap.keys, Function.comp_def]

theorem typeNames_append (a b : List file) : typeNames (a ++ b) = typeNames a ++ typeNames b := by
  induction a with
  | nil => rfl
  | cons f fs ih =>
    by_cases h : HasPrefix f.Path "tests" = true
    · simp [typeNames, h, ih]
    · simp [typeNames, h, ih]

theorem transformFiles_dup_split (ns : String) (fs : List file) (st : transformState)
    (hs : ∀ n ∈ typeNames fs, HasPrefix n ns = true) (hk : st.pages.keys.Nodup)
    (hnd : ¬ (st.pages.keys ++ typeNames fs).Nodup) :
    ∃ pre f post u, fs = pre ++ f :: post ∧ HasPrefix f.Path "tests" = false ∧
      u ∈ fileTypeNames f ∧ (st.pages.keys ++ typeNames pre).Nodup ∧
      2 ≤ (st.pages.keys ++ typeNames (pre ++ [f])).count u ∧
      transformFiles ns fs st = .error (.duplicateUID u) ∧
      ∃ st1, transformFiles ns pre st = .ok st1 := by
  induction fs generalizing st with
  | nil => exact absurd (by simpa [typeNames] using hk) hnd
  | cons f fs ih =>
    by_cases hskip : HasPrefix f.Path "tests" = true
    · have htn : typeNames (f :: fs) = typeNames fs := by simp [typeNames, hskip]
      rw [htn] at hs hnd
      obtain ⟨pre, g, post, u, h1, h2, h3, h4, h5, h6, st1, h7⟩ := ih st hs hk hnd
      refine ⟨f :: pre, g, post, u, by rw [h1]; rfl, h2, h3, ?_, ?_, ?_, st1, ?_⟩
      · simpa [typeNames, hskip] using h4
      · simpa [typeNames, hskip] using h5
      · simpa [transformFiles, hskip] using h6
      · simpa [transformFiles, hskip] using h7
    · have hskip2 : HasPrefix f.Path "tests" = false := by simpa using hskip
      have htn : typeNames (f :: fs) = fileTypeNames f ++ typeNames fs := by
        simp [typeNames, hskip2]
      have hsf : ∀ e ∈ fileEntries ns f, HasPrefix e.uid ns = true := by
        intro e he
        apply hs
        rw [htn, ← fileEntries_uid ns]
        exact List.mem_append_left _ (List.mem_map.2 ⟨e, he, rfl⟩)
      by_cases hfile : (st.pages.keys ++ fileTypeNames f).Nodup
      · have hstep := processEntries_ok ns (fileEntries ns f) st hsf
          (by rw [fileEntries_uid]; exact hfile)
        have hk2 : (pageMap.keys (st.pages ++
            (fileEntries ns f).map (fun e => (e.uid, e.pg)))).Nodup := by
          rw [keys_append_entries, fileEntries_uid]; exact hfile
        have hkeys : pageMap.keys (st.pages ++
            (fileEntries ns f).map (fun e => (e.uid, e.pg))) =
            st.pages.keys ++ fileTypeNames f := by
          rw [keys_append_entries, fileEntries_uid]
        obtain ⟨pre, g, post, u, h1, h2, h3, h4, h5, h6, st1, h7⟩ := ih
          { pages := st.pages ++ (fileEntries ns f).map (fun e => (e.uid, e.pg)),
            tocItems := st.tocItems ++ (fileEntries ns f).map (fun e => e.toc) }
          (fun n hn => hs n (by rw [htn]; exact List.mem_append_right _ hn)) hk2
          (by rw [hkeys, List.append_assoc, ← htn]; exact hnd)
        simp only [hkeys] at h4 h5
        refine ⟨f :: pre, g, post, u, by rw [h1]; rfl, h2, h3, ?_, ?_, ?_, st1, ?_⟩
        · simpa [typeNames, hskip2, List.append_assoc] using h4
        · simpa [typeNames, hskip2, List.append_assoc] using h5
        · simp only [transformFiles, hskip2, Bool.false_eq_true, if_false, fileStep_eq, hstep]
          exact h6
        · simp only [transformFiles, hskip2, Bool.false_eq_true, if_false, fileStep_eq, hstep]
          exact h7
      · obtain ⟨es1, e, es2, hsplit, hmem, hr⟩ := processEntries_dup ns (fileEntries ns f) st hsf hk
          (by rw [fileEntries_uid]; exact hfile)
        have hnames : fileTypeNames f =
            es1.map (fun e => e.uid) ++ e.uid :: es2.map (fun e => e.uid) := by
          rw [← fileEntries_uid ns, hsplit]; simp
        refine ⟨[], f, fs, e.uid, rfl, hskip2, ?_, by simpa [typeNames] using hk, ?_, ?_, st, rfl⟩
        · rw [hnames]; simp
        · have := count_two_of_mem _ (es2.map (fun e => e.uid)) e.uid hmem
          simpa [typeNames, hskip2, hnames, List.append_assoc] using this
        · simp only [transformFiles, hskip2, Bool.false_eq_true, if_false, fileStep_eq, hr]

/-! ## C1 -/

/-- C1: transform never fails spuriously.  For every project and root
namespace, if every class, trait and interface declared in a file whose Path
does not start with "tests" has a FullName that starts with the root namespace
and these FullNames are pairwise distinct, then `transform` returns a pages map
and a TOC and no error, whatever else the files contain. -/
theorem transform_succeeds_on_valid_input (p : project) (ns : String)
    (hs : ∀ n ∈ typeNames p.Files, HasPrefix n ns = true)
    (hnd : (typeNames p.Files).Nodup) :
    ∃ pages toc, transform p ns = .ok (pages, toc) :=
  ⟨_, _, transform_ok_of p ns hs hnd⟩

/-- C1 at `sampleProject`, which has free constants and functions, docblocks,
members and a skipped out-of-scope test file. -/
theorem transform_succeeds_on_valid_input_witness :
    (∀ n ∈ typeNames sampleProject.Files, HasPrefix n "\\NS" = true) ∧
    (typeNames sampleProject.Files).Nodup ∧
    ∃ pages toc, transform sampleProject "\\NS" = .ok (pages, toc) :=
  ⟨by decide, by decide,
   transform_succeeds_on_valid_input sampleProject "\\NS" (by decide) (by decide)⟩

/-! ## C2 -/

/-- C2: a scope violation is a total failure.  If some type declared in a file
that is not skipped has a FullName that does not start with the root
namespace, `transform` returns an error (hence neither a pages map nor a
TOC); and when the type FullNames of the non-skipped files are pairwise
distinct, the error is the scope error for such a FullName. -/
theorem transform_fails_out_of_scope (p : project) (ns : String)
    (hbad : ∃ n ∈ typeNames p.Files, HasPrefix n ns = false) :
    (∃ err, transform p ns = .error err) ∧
    ((typeNames p.Files).Nodup →
      ∃ u ∈ typeNames p.Files, HasPrefix u ns = false ∧
        transform p ns = .error (.scope u ns)) := by
  constructor
  · cases h : transform p ns with
    | error err => exact ⟨err, rfl⟩
    | ok r =>
      obtain ⟨n, hn, hns⟩ := hbad
      have := (transform_ok_inv p ns r h).1 n hn
      rw [this] at hns; cases hns
  · intro hnd
    have hbad2 : ∃ e ∈ allEntries ns p.Files, HasPrefix e.uid ns = false := by
      obtain ⟨n, hn, hns⟩ := hbad
      rw [← allEntries_uid ns] at hn
      obtain ⟨e, he, rfl⟩ := List.mem_map.1 hn
      exact ⟨e, he, hns⟩
    obtain ⟨u, hu, hus, hr⟩ := processEntries_scope ns (allEntries ns p.Files) {}
      (by rw [allEntries_uid]; simpa [pageMap.keys] using hnd) hbad2
    rw [allEntries_uid] at hu
    refine ⟨u, hu, hus, ?_⟩
    unfold transform
    rw [transformFiles_eq, hr]

/-- C2 at Scenario C: the class `\Other\Foo` under the root namespace `\NS`. -/
theorem transform_fails_out_of_scope_witness :
    (∃ n ∈ typeNames scenarioC.Files, HasPrefix n "\\NS" = false) ∧
    (∃ err, transform scenarioC "\\NS" = .error err) ∧
    ((typeNames scenarioC.Files).Nodup →
      ∃ u ∈ typeNames scenarioC.Files, HasPrefix u "\\NS" = false ∧
        transform scenarioC "\\NS" = .error (.scope u "\\NS")) :=
  ⟨by decide, transform_fails_out_of_scope scenarioC "\\NS" (by decide)⟩

/-! ## C3 -/

/-- C3, as stated, fails on `twoPairs` (classes `\NS\A`, `\NS\B`, `\NS\B`,
`\NS\A`, all in scope).  The first and the fourth file declare the same
FullName `\NS\A`, and the fourth file holds its second occurrence; yet the
project truncated just before the fourth file does not succeed: it fails on
the repeated `\NS\B`. -/
theorem duplicate_second_occurrence_counterexample :
    (∀ n ∈ typeNames twoPairs.Files, HasPrefix n "\\NS" = true) ∧
    (twoPairs.Files.drop 3).map fileTypeNames = [["\\NS\\A"]] ∧
    (typeNames (twoPairs.Files.take 3)).count "\\NS\\A" = 1 ∧
    transform twoPairs "\\NS" = .error (.duplicateUID "\\NS\\B") ∧
    transform { twoPairs with Files := twoPairs.Files.take 3 } "\\NS" =
      .error (.duplicateUID "\\NS\\B") :=
  ⟨by decide, by decide, by decide, rfl, rfl⟩

/-- C3, amended: a duplicate type UID is a total failure, raised at the
earliest repeated declaration.  If every type of the non-skipped files is in
scope and two type declarations share a FullName, then `transform` returns
the duplicate-UID error for a FullName `u` (hence no pages map and no TOC),
and the file list splits as `pre ++ f :: post` where `f` is not skipped and
declares `u`, `u` occurs at least twice among the types of `pre ++ [f]`, the
types of `pre` are pairwise distinct, and the project truncated to `pre`
still succeeds. -/
theorem transform_fails_at_first_repeated_type (p : project) (ns : String)
    (hs : ∀ n ∈ typeNames p.Files, HasPrefix n ns = true)
    (hdup : ¬ (typeNames p.Files).Nodup) :
    ∃ pre f post u, p.Files = pre ++ f :: post ∧ HasPrefix f.Path "tests" = false ∧
      u ∈ fileTypeNames f ∧ (typeNames pre).Nodup ∧
      2 ≤ (typeNames (pre ++ [f])).count u ∧
      transform p ns = .error (.duplicateUID u) ∧
      ∃ r, transform { p with Files := pre } ns = .ok r := by
  obtain ⟨pre, f, post, u, h1, h2, h3, h4, h5, h6, st1, h7⟩ :=
    transformFiles_dup_split ns p.Files {} hs (by simp [pageMap.keys])
      (by simpa [pageMap.keys] using hdup)
  refine ⟨pre, f, post, u, h1, h2, h3, by simpa [pageMap.keys] using h4,
    by simpa [pageMap.keys] using h5, ?_, ?_⟩
  · simp only [transform, h6]
  · simp only [transform, h7]
    exact ⟨_, rfl⟩

/-- C3 (amended) at Scenario D: two files that both declare `\NS\Foo`. -/
theorem transform_fails_at_first_repeated_type_witness :
    (∀ n ∈ typeNames scenarioD.Files, HasPrefix n "\\NS" = true) ∧
    ¬ (typeNames scenarioD.Files).Nodup ∧
    ∃ pre f post u, scenarioD.Files = pre ++ f :: post ∧ HasPrefix f.Path "tests" = false ∧
      u ∈ fileTypeNames f ∧ (typeNames pre).Nodup ∧
      2 ≤ (typeNames (pre ++ [f])).count u ∧
      transform scenarioD "\\NS" = .error (.duplicateUID u) ∧
      ∃ r, transform { scenarioD with Files := pre } "\\NS" = .ok r :=
  ⟨by decide, by decide,
   transform_fails_at_first_repeated_type scenarioD "\\NS" (by decide) (by decide)⟩

/-! ## C4 -/

/-- C4: transform never silently overwrites a page.  Whenever `transform`
succeeds, the pages map has as many entries as there are classes, traits and
interfaces declared in the files that are not skipped, the FullName of each
of them is a key of the map, and no key occurs twice. -/
theorem pages_one_per_type (p : project) (ns : String) (pages : pageMap)
    (toc : tableOfContents) (h : transform p ns = .ok (pages, toc)) :
    pages.len = (typeNames p.Files).length ∧
    (∀ n ∈ typeNames p.Files, pages.has n = true) ∧
    pages.keys.Nodup := by
  obtain ⟨_, hnd⟩ := transform_ok_inv p ns _ h
  obtain ⟨hp, _⟩ := transform_ok_eq p ns pages toc h
  have hkeys : pages.keys = typeNames p.Files := by
    rw [hp, entryPages_keys, allEntries_uid]
  refine ⟨?_, ?_, by rw [hkeys]; exact hnd⟩
  · rw [← hkeys]; simp [pageMap.len, pageMap.keys]
  · intro n hn
    rw [pageMap_has_iff, hkeys]; exact hn

/-- C4 at `sampleProject`: three types, three pages. -/
theorem pages_one_per_type_witness :
    transform sampleProject "\\NS" = .ok (samplePages, sampleToc) ∧
    samplePages.len = (typeNames sampleProject.Files).length ∧
    (∀ n ∈ typeNames sampleProject.Files, samplePages.has n = true) ∧
    samplePages.keys.Nodup :=
  ⟨rfl, pages_one_per_type sampleProject "\\NS" samplePages sampleToc rfl⟩

/-! ## C5 -/

theorem typeItemUIDs_entries (es : List typeEntry)
    (h : ∀ e ∈ es, ∃ owner rest, e.pg.Items = owner :: rest ∧ owner.UID = e.uid) :
    typeItemUIDs (es.map (fun e => (e.uid, e.pg))) = es.map (fun e => e.uid) := by
  induction es with
  | nil => rfl
  | cons e es ih =>
    obtain ⟨owner, rest, h1, h2⟩ := h e (by simp)
    have := ih (fun x hx => h x (by simp [hx]))
    simp only [typeItemUIDs, List.map_cons, List.flatten_cons, h1, List.take_succ_cons,
      List.take_zero, List.map_nil, h2, List.singleton_append] at this ⊢
    rw [this]

theorem entry_owner (ns : String) (fs : List file) (e : typeEntry)
    (he : e ∈ allEntries ns fs) :
    ∃ owner rest, e.pg.Items = owner :: rest ∧ owner.UID = e.uid := by
  obtain ⟨f, _, _, hf⟩ := (mem_allEntries ns fs e).1 he
  rcases (mem_fileEntries ns f e).1 hf with ⟨c, _, rfl⟩ | ⟨t, _, rfl⟩ | ⟨i, _, rfl⟩
  · rw [classEntry_pg]; exact ⟨_, _, rfl, rfl⟩
  · rw [traitEntry_pg]; exact ⟨_, _, rfl, rfl⟩
  · rw [interfaceEntry_pg]; exact ⟨_, _, rfl, rfl⟩

/-- C5, as stated, fails on `repeatedMember`: the class `\NS\Foo` has two
methods of its own with the FullName `\NS\Foo::run()`; `transform` succeeds
and the page holds two items with that UID. -/
theorem item_uids_unique_counterexample :
    ∃ pages toc, transform repeatedMember "\\NS" = .ok (pages, toc) ∧
      allItemUIDs pages = ["\\NS\\Foo", "\\NS\\Foo::run()", "\\NS\\Foo::run()"] ∧
      ¬ (allItemUIDs pages).Nodup :=
  ⟨_, _, rfl, by decide, by decide⟩

/-- C5, amended: every documented type has a globally unique UID.  Whenever
`transform` succeeds, the UIDs of the type-level items of the pages (the first
item of every page) are the keys of the pages map and are pairwise distinct;
and an input in which two types of the non-skipped files have the same
FullName makes `transform` fail, with the duplicate-UID error when every type
of the non-skipped files is in scope.  The UIDs of member items are not
compared with anything. -/
theorem type_uids_unique (p : project) (ns : String) :
    (∀ pages toc, transform p ns = .ok (pages, toc) →
      typeItemUIDs pages = pages.keys ∧ (typeItemUIDs pages).Nodup) ∧
    (¬ (typeNames p.Files).Nodup →
      (∃ err, transform p ns = .error err) ∧
      ((∀ n ∈ typeNames p.Files, HasPrefix n ns = true) →
        ∃ u, transform p ns = .error (.duplicateUID u))) := by
  constructor
  · intro pages toc h
    obtain ⟨_, hnd⟩ := transform_ok_inv p ns _ h
    obtain ⟨hp, _⟩ := transform_ok_eq p ns pages toc h
    have h1 : typeItemUIDs pages = pages.keys := by
      rw [hp, entryPages_keys]
      exact typeItemUIDs_entries _ (fun e he => entry_owner ns p.Files e he)
    refine ⟨h1, ?_⟩
    rw [h1, hp, entryPages_keys, allEntries_uid]
    exact hnd
  · intro hdup
    constructor
    · cases h : transform p ns with
      | error err => exact ⟨err, rfl⟩
      | ok r => exact absurd (transform_ok_inv p ns r h).2 hdup
    · intro hs
      obtain ⟨_, _, _, u, _, _, _, _, _, h6, _⟩ :=
        transformFiles_dup_split ns p.Files {} hs (by simp [pageMap.keys])
          (by simpa [pageMap.keys] using hdup)
      exact ⟨u, by simp only [transform, h6]⟩

/-- C5 (amended) at `sampleProject`, which succeeds, and at Scenario D, which
declares `\NS\Foo` twice. -/
theorem type_uids_unique_witness :
    (transform sampleProject "\\NS" = .ok (samplePages, sampleToc) ∧
      typeItemUIDs samplePages = samplePages.keys ∧ (typeItemUIDs samplePages).Nodup) ∧
    (¬ (typeNames scenarioD.Files).Nodup ∧
      (∀ n ∈ typeNames scenarioD.Files, HasPrefix n "\\NS" = true) ∧
      ∃ u, transform scenarioD "\\NS" = .error (.duplicateUID u)) :=
  ⟨⟨rfl, (type_uids_unique sampleProject "\\NS").1 samplePages sampleToc rfl⟩,
   ⟨by decide, by decide,
    ((type_uids_unique scenarioD "\\NS").2 (by decide)).2 (by decide)⟩⟩

/-! ## C6 -/

/-- C6: scope containment of page keys and TOC entries.  Whenever
`transform p rootNamespace` succeeds, every key of the returned pages map
starts with the root namespace, and so does the UID of every child of the TOC
root (the TOC is the one-element list holding the root). -/
theorem output_keys_in_scope (p : project) (ns : String) (pages : pageMap)
    (toc : tableOfContents) (h : transform p ns = .ok (pages, toc)) :
    (∀ k ∈ pages.keys, HasPrefix k ns = true) ∧
    (∀ root ∈ toc, ∀ c ∈ root.Items, HasPrefix c.UID ns = true) := by
  obtain ⟨hs, _⟩ := transform_ok_inv p ns _ h
  obtain ⟨hp, ht⟩ := transform_ok_eq p ns pages toc h
  constructor
  · intro k hk
    rw [hp, entryPages_keys, allEntries_uid] at hk
    exact hs k hk
  · intro root hroot c hc
    rw [ht, List.mem_singleton] at hroot
    subst hroot
    simp only [tocItem.Items] at hc
    have hc2 := (sortByUID_perm _).mem_iff.1 hc
    obtain ⟨e, he, rfl⟩ := List.mem_map.1 hc2
    have hscope : HasPrefix e.uid ns = true := by
      apply hs
      rw [← allEntries_uid ns]
      exact List.mem_map.2 ⟨e, he, rfl⟩
    obtain ⟨f, _, _, hf⟩ := (mem_allEntries ns p.Files e).1 he
    rcases (mem_fileEntries ns f e).1 hf with ⟨c, _, rfl⟩ | ⟨t, _, rfl⟩ | ⟨i, _, rfl⟩ <;>
      exact hscope

/-- C6 at `sampleProject`. -/
theorem output_keys_in_scope_witness :
    transform sampleProject "\\NS" = .ok (samplePages, sampleToc) ∧
    (∀ k ∈ samplePages.keys, HasPrefix k "\\NS" = true) ∧
    (∀ root ∈ sampleToc, ∀ c ∈ root.Items, HasPrefix c.UID "\\NS" = true) :=
  ⟨rfl, output_keys_in_scope sampleProject "\\NS" samplePages sampleToc rfl⟩

/-! ## C7 -/

theorem transform_ok_get (p : project) (ns : String) (pages : pageMap)
    (toc : tableOfContents) (h : transform p ns = .ok (pages, toc))
    (e : typeEntry) (he : e ∈ allEntries ns p.Files) :
    pages.get e.uid = some e.pg := by
  obtain ⟨_, hnd⟩ := transform_ok_inv p ns _ h
  obtain ⟨hp, _⟩ := transform_ok_eq p ns pages toc h
  apply pageMap_get_of_mem
  · rw [hp, entryPages_keys, allEntries_uid]; exact hnd
  · rw [hp]; exact List.mem_map.2 ⟨e, he, rfl⟩

/-- C7, as stated, fails on `foreignMember`: the class `\NS\Foo` is in scope,
its own method has the FullName `\Other\Util::run()`; `transform` succeeds
under the root `\NS` and the page holds an item whose UID lacks the prefix. -/
theorem item_uids_in_scope_counterexample :
    ∃ pages toc, transform foreignMember "\\NS" = .ok (pages, toc) ∧
      allItemUIDs pages = ["\\NS\\Foo", "\\Other\\Util::run()"] ∧
      ∃ u ∈ allItemUIDs pages, HasPrefix u "\\NS" = false :=
  ⟨_, _, rfl, by decide, by decide⟩

/-- C7, amended: scope containment of every type.  Whenever
`transform p rootNamespace` succeeds, every page starts with a type-level item
whose UID is the key of the page and starts with the root namespace; and an
input in which a type of a non-skipped file has a FullName without the
root-namespace prefix makes `transform` fail.  Member items take the member's
FullName as UID without a scope check. -/
theorem type_items_in_scope (p : project) (ns : String) :
    (∀ pages toc, transform p ns = .ok (pages, toc) →
      ∀ kv ∈ pages, ∃ owner rest, kv.2.Items = owner :: rest ∧ owner.UID = kv.1 ∧
        HasPrefix owner.UID ns = true) ∧
    ((∃ n ∈ typeNames p.Files, HasPrefix n ns = false) →
      ∃ err, transform p ns = .error err) := by
  constructor
  · intro pages toc h kv hkv
    obtain ⟨hs, _⟩ := transform_ok_inv p ns _ h
    obtain ⟨hp, _⟩ := transform_ok_eq p ns pages toc h
    rw [hp] at hkv
    obtain ⟨e, he, rfl⟩ := List.mem_map.1 hkv
    obtain ⟨owner, rest, h1, h2⟩ := entry_owner ns p.Files e he
    refine ⟨owner, rest, h1, h2, ?_⟩
    rw [h2]
    apply hs
    rw [← allEntries_uid ns]
    exact List.mem_map.2 ⟨e, he, rfl⟩
  · rintro ⟨n, hn, hns⟩
    cases h : transform p ns with
    | error err => exact ⟨err, rfl⟩
    | ok r =>
      have := (transform_ok_inv p ns r h).1 n hn
      rw [this] at hns; cases hns

/-- C7 (amended) at `sampleProject`, which succeeds, and at Scenario C, whose
class is out of scope. -/
theorem type_items_in_scope_witness :
    (transform sampleProject "\\NS" = .ok (samplePages, sampleToc) ∧
      ∀ kv ∈ samplePages, ∃ owner rest, kv.2.Items = owner :: rest ∧ owner.UID = kv.1 ∧
        HasPrefix owner.UID "\\NS" = true) ∧
    ((∃ n ∈ typeNames scenarioC.Files, HasPrefix n "\\NS" = false) ∧
      ∃ err, transform scenarioC "\\NS" = .error err) :=
  ⟨⟨rfl, (type_items_in_scope sampleProject "\\NS").1 samplePages sampleToc rfl⟩,
   ⟨by decide, (type_items_in_scope scenarioC "\\NS").2 (by decide)⟩⟩

/-! ## C8 -/

theorem classEntry_mem (ns : String) (fs : List file) (f : file) (c : classDecl)
    (hf : f ∈ fs) (hskip : HasPrefix f.Path "tests" = false) (hc : f.Class = some c) :
    classEntry ns c ∈ allEntries ns fs :=
  (mem_allEntries ns fs _).2 ⟨f, hf, hskip, (mem_fileEntries ns f _).2 (Or.inl ⟨c, hc, rfl⟩)⟩

theorem traitEntry_mem (ns : String) (fs : List file) (f : file) (t : trait)
    (hf : f ∈ fs) (hskip : HasPrefix f.Path "tests" = false) (ht : f.Trait = some t) :
    traitEntry ns t ∈ allEntries ns fs :=
  (mem_allEntries ns fs _).2
    ⟨f, hf, hskip, (mem_fileEntries ns f _).2 (Or.inr (Or.inl ⟨t, ht, rfl⟩))⟩

theorem interfaceEntry_mem (ns : String) (fs : List file) (f : file) (i : iface)
    (hf : f ∈ fs) (hskip : HasPrefix f.Path "tests" = false) (hi : f.Interface = some i) :
    interfaceEntry ns i ∈ allEntries ns fs :=
  (mem_allEntries ns fs _).2
    ⟨f, hf, hskip, (mem_fileEntries ns f _).2 (Or.inr (Or.inr ⟨i, hi, rfl⟩))⟩

/-- C8: inheritance exclusion.  Whenever `transform` succeeds, for every
class, trait or interface of a non-skipped file the page keyed by its FullName
is the type-level item (UID = the FullName, no parent) followed by one item
per method with empty InheritedFrom, in declaration order, and then (classes
and interfaces only) one item per constant with empty InheritedFrom, in
declaration order, and nothing else; and every key of the pages map is the
FullName of such a type.  So a member with non-empty InheritedFrom has no item
on any page, whatever its docblock. -/
theorem page_items_exclude_inherited (p : project) (ns : String) (pages : pageMap)
    (toc : tableOfContents) (h : transform p ns = .ok (pages, toc)) :
    (∀ f ∈ p.Files, HasPrefix f.Path "tests" = false →
      (∀ c, f.Class = some c →
        ∃ owner, owner.UID = c.FullName ∧ owner.Parent = "" ∧ owner.Type_ = "class" ∧
          pages.get c.FullName = some
            { Items := owner ::
                ((ownMethods c.Methods).map (methodItem c.FullName) ++
                 (ownConstants c.Constants).map (constantItem c.FullName)) }) ∧
      (∀ t, f.Trait = some t →
        ∃ owner, owner.UID = t.FullName ∧ owner.Parent = "" ∧ owner.Type_ = "trait" ∧
          pages.get t.FullName = some
            { Items := owner :: (ownMethods t.Methods).map (methodItem t.FullName) }) ∧
      (∀ i, f.Interface = some i →
        ∃ owner, owner.UID = i.FullName ∧ owner.Parent = "" ∧ owner.Type_ = "interface" ∧
          pages.get i.FullName = some
            { Items := owner ::
                ((ownMethods i.Methods).map (methodItem i.FullName) ++
                 (ownConstants i.Constants).map (constantItem i.FullName)) })) ∧
    (∀ k ∈ pages.keys, k ∈ typeNames p.Files) := by
  constructor
  · intro f hf hskip
    refine ⟨?_, ?_, ?_⟩
    · intro c hc
      have hg := transform_ok_get p ns pages toc h _ (classEntry_mem ns p.Files f c hf hskip hc)
      rw [classEntry_pg] at hg
      exact ⟨_, rfl, rfl, rfl, hg⟩
    · intro t ht
      have hg := transform_ok_get p ns pages toc h _ (traitEntry_mem ns p.Files f t hf hskip ht)
      rw [traitEntry_pg] at hg
      exact ⟨_, rfl, rfl, rfl, hg⟩
    · intro i hi
      have hg := transform_ok_get p ns pages toc h _
        (interfaceEntry_mem ns p.Files f i hf hskip hi)
      rw [interfaceEntry_pg] at hg
      exact ⟨_, rfl, rfl, rfl, hg⟩
  · intro k hk
    obtain ⟨hp, _⟩ := transform_ok_eq p ns pages toc h
    rw [hp, entryPages_keys, allEntries_uid] at hk
    exact hk

/-- C8 at `sampleProject`, whose class has an inherited method with a docblock
and an inherited constant. -/
theorem page_items_exclude_inherited_witness :
    transform sampleProject "\\NS" = .ok (samplePages, sampleToc) ∧
    (∀ f ∈ sampleProject.Files, HasPrefix f.Path "tests" = false →
      (∀ c, f.Class = some c →
        ∃ owner, owner.UID = c.FullName ∧ owner.Parent = "" ∧ owner.Type_ = "class" ∧
          samplePages.get c.FullName = some
            { Items := owner ::
                ((ownMethods c.Methods).map (methodItem c.FullName) ++
                 (ownConstants c.Constants).map (constantItem c.FullName)) }) ∧
      (∀ t, f.Trait = some t →
        ∃ owner, owner.UID = t.FullName ∧ owner.Parent = "" ∧ owner.Type_ = "trait" ∧
          samplePages.get t.FullName = some
            { Items := owner :: (ownMethods t.Methods).map (methodItem t.FullName) }) ∧
      (∀ i, f.Interface = some i →
        ∃ owner, owner.UID = i.FullName ∧ owner.Parent = "" ∧ owner.Type_ = "interface" ∧
          samplePages.get i.FullName = some
            { Items := owner ::
                ((ownMethods i.Methods).map (methodItem i.FullName) ++
                 (ownConstants i.Constants).map (constantItem i.FullName)) })) ∧
    (∀ k ∈ samplePages.keys, k ∈ typeNames sampleProject.Files) :=
  ⟨rfl, page_items_exclude_inherited sampleProject "\\NS" samplePages sampleToc rfl⟩

/-! ## C9 -/

/-- C9, as stated, fails on `traitProject`: the trait `\NS\Shared` has the
inherited property `\NS\Base::$id`; `transform` succeeds and the
inherited-member list of the trait-level item (the only item of the page) is
empty.  The trait branch has no loop over the properties. -/
theorem trait_inherited_property_counterexample :
    traitProject.Files.map (fun f => f.Trait) = [some propertyTrait] ∧
    (inheritedProperties propertyTrait.Properties).map (fun q => q.FullName) =
      ["\\NS\\Base::$id"] ∧
    ∃ pages toc, transform traitProject "\\NS" = .ok (pages, toc) ∧
      (pages.get "\\NS\\Shared").map (fun pg => pg.Items.map (fun it => it.InheritedMembers)) =
        some [[]] :=
  ⟨by decide, by decide, _, _, rfl, by decide⟩

/-- C9, amended: inherited members are recorded on their owner.  Whenever
`transform` succeeds, for every type of a non-skipped file the
inherited-member list of the type-level item of its page is exactly: for a
class, the FullNames of its inherited properties, then of its inherited
methods, then of its inherited constants; for a trait, the FullNames of its
inherited methods (the properties of a trait are not read); for an interface,
the FullNames of its inherited methods, then of its inherited constants; each
group in declaration order. -/
theorem inherited_members_recorded (p : project) (ns : String) (pages : pageMap)
    (toc : tableOfContents) (h : transform p ns = .ok (pages, toc)) :
    ∀ f ∈ p.Files, HasPrefix f.Path "tests" = false →
      (∀ c, f.Class = some c →
        ∃ owner rest, pages.get c.FullName = some { Items := owner :: rest } ∧
          owner.UID = c.FullName ∧
          owner.InheritedMembers =
            (inheritedProperties c.Properties).map (fun q => q.FullName) ++
            (inheritedMethods c.Methods).map (fun m => m.FullName) ++
            (inheritedConstants c.Constants).map (fun k => k.FullName)) ∧
      (∀ t, f.Trait = some t →
        ∃ owner rest, pages.get t.FullName = some { Items := owner :: rest } ∧
          owner.UID = t.FullName ∧
          owner.InheritedMembers = (inheritedMethods t.Methods).map (fun m => m.FullName)) ∧
      (∀ i, f.Interface = some i →
        ∃ owner rest, pages.get i.FullName = some { Items := owner :: rest } ∧
          owner.UID = i.FullName ∧
          owner.InheritedMembers =
            (inheritedMethods i.Methods).map (fun m => m.FullName) ++
            (inheritedConstants i.Constants).map (fun k => k.FullName)) := by
  intro f hf hskip
  refine ⟨?_, ?_, ?_⟩
  · intro c hc
    have hg := transform_ok_get p ns pages toc h _ (classEntry_mem ns p.Files f c hf hskip hc)
    rw [classEntry_pg] at hg
    exact ⟨_, _, hg, rfl, rfl⟩
  · intro t ht
    have hg := transform_ok_get p ns pages toc h _ (traitEntry_mem ns p.Files f t hf hskip ht)
    rw [traitEntry_pg] at hg
    exact ⟨_, _, hg, rfl, rfl⟩
  · intro i hi
    have hg := transform_ok_get p ns pages toc h _
      (interfaceEntry_mem ns p.Files f i hf hskip hi)
    rw [interfaceEntry_pg] at hg
    exact ⟨_, _, hg, rfl, rfl⟩

/-- C9 (amended) at `sampleProject`, whose class has an inherited property, an
inherited method and an inherited constant. -/
theorem inherited_members_recorded_witness :
    transform sampleProject "\\NS" = .ok (samplePages, sampleToc) ∧
    ∀ f ∈ sampleProject.Files, HasPrefix f.Path "tests" = false →
      (∀ c, f.Class = some c →
        ∃ owner rest, samplePages.get c.FullName = some { Items := owner :: rest } ∧
          owner.UID = c.FullName ∧
          owner.InheritedMembers =
            (inheritedProperties c.Properties).map (fun q => q.FullName) ++
            (inheritedMethods c.Methods).map (fun m => m.FullName) ++
            (inheritedConstants c.Constants).map (fun k => k.FullName)) ∧
      (∀ t, f.Trait = some t →
        ∃ owner rest, samplePages.get t.FullName = some { Items := owner :: rest } ∧
          owner.UID = t.FullName ∧
          owner.InheritedMembers = (inheritedMethods t.Methods).map (fun m => m.FullName)) ∧
      (∀ i, f.Interface = some i →
        ∃ owner rest, samplePages.get i.FullName = some { Items := owner :: rest } ∧
          owner.UID = i.FullName ∧
          owner.InheritedMembers =
            (inheritedMethods i.Methods).map (fun m => m.FullName) ++
            (inheritedConstants i.Constants).map (fun k => k.FullName)) :=
  ⟨rfl, inherited_members_recorded sampleProject "\\NS" samplePages sampleToc rfl⟩

/-! ## C10 -/

/-- C10, as stated, fails on Scenario B itself: the method `bar` of the class
`\NS\Foo` has FullName `\NS\Foo::bar()` and InheritedFrom `\NS\Base::bar`;
`transform` succeeds and the inherited-member list of the class-level item is
`["\NS\Foo::bar()"]`: it holds the FullName of the method, not the value of
InheritedFrom. -/
theorem scenario_b_inherited_from_counterexample :
    scenarioBClass.Methods.map (fun m => (m.FullName, m.InheritedFrom)) =
      [("\\NS\\Foo::bar()", "\\NS\\Base::bar")] ∧
    transform scenarioB "\\NS" = .ok (scenarioBPages, scenarioBToc) ∧
    (scenarioBPages.get "\\NS\\Foo").map
        (fun pg => pg.Items.map (fun it => it.InheritedMembers)) =
      some [["\\NS\\Foo::bar()"]] ∧
    "\\NS\\Base::bar" ∉ ["\\NS\\Foo::bar()"] :=
  ⟨by decide, rfl, by decide, by decide⟩

/-- C10, amended: Scenario B for every input of its kind.  Whenever
`transform` succeeds and a class of a non-skipped file has a method `m` whose
InheritedFrom is non-empty, the class-level item of the page of that class
has the FullName of `m` in its inherited-member list (the value of
InheritedFrom itself is not recorded), and the items that follow the
class-level item on the page are those of the methods and constants with empty
InheritedFrom, of which `m` is none. -/
theorem inherited_method_recorded_by_full_name (p : project) (ns : String)
    (pages : pageMap) (toc : tableOfContents) (h : transform p ns = .ok (pages, toc))
    (f : file) (hf : f ∈ p.Files) (hskip : HasPrefix f.Path "tests" = false)
    (c : classDecl) (hc : f.Class = some c)
    (m : method) (hm : m ∈ c.Methods) (hinh : m.InheritedFrom ≠ "") :
    ∃ owner, owner.UID = c.FullName ∧ owner.Type_ = "class" ∧
      pages.get c.FullName = some
        { Items := owner ::
            ((ownMethods c.Methods).map (methodItem c.FullName) ++
             (ownConstants c.Constants).map (constantItem c.FullName)) } ∧
      m.FullName ∈ owner.InheritedMembers ∧
      m ∉ ownMethods c.Methods := by
  have hg := transform_ok_get p ns pages toc h _ (classEntry_mem ns p.Files f c hf hskip hc)
  rw [classEntry_pg] at hg
  refine ⟨_, rfl, rfl, hg, ?_, ?_⟩
  · simp only [List.mem_append, List.mem_map]
    refine Or.inl (Or.inr ⟨m, ?_, rfl⟩)
    simp [inheritedMethods, hm, hinh]
  · simp [ownMethods, hinh]

/-- C10 (amended) at Scenario B. -/
theorem inherited_method_recorded_by_full_name_witness :
    transform scenarioB "\\NS" = .ok (scenarioBPages, scenarioBToc) ∧
    scenarioBFile ∈ scenarioB.Files ∧ HasPrefix scenarioBFile.Path "tests" = false ∧
    scenarioBFile.Class = some scenarioBClass ∧ scenarioBMethod ∈ scenarioBClass.Methods ∧
    scenarioBMethod.InheritedFrom ≠ "" ∧
    ∃ owner, owner.UID = scenarioBClass.FullName ∧ owner.Type_ = "class" ∧
      scenarioBPages.get scenarioBClass.FullName = some
        { Items := owner ::
            ((ownMethods scenarioBClass.Methods).map (methodItem scenarioBClass.FullName) ++
             (ownConstants scenarioBClass.Constants).map
               (constantItem scenarioBClass.FullName)) } ∧
      scenarioBMethod.FullName ∈ owner.InheritedMembers ∧
      scenarioBMethod ∉ ownMethods scenarioBClass.Methods :=
  ⟨rfl, by decide, by decide, rfl, by decide, by decide,
   inherited_method_recorded_by_full_name scenarioB "\\NS" scenarioBPages scenarioBToc rfl
     scenarioBFile (by decide) (by decide) scenarioBClass rfl scenarioBMethod (by decide)
     (by decide)⟩

/-! ## Lemmas: the order on UIDs and the sort -/

theorem char_toNat_lt (a b : Char) : a.toNat < b.toNat ↔ a < b := by
  rw [Char.lt_def]
  rfl

theorem lessChars_iff (a b : List Char) : lessChars a b = true ↔ a < b := by
  induction a generalizing b with
  | nil =>
    cases b with
    | nil => simp [lessChars]
    | cons y ys => simp only [lessChars, true_iff]; exact List.Lex.nil
  | cons x xs ih =>
    cases b with
    | nil => simp [lessChars]
    | cons y ys =>
      simp only [lessChars, Bool.or_eq_true, Bool.and_eq_true, decide_eq_true_eq, ih,
        char_toNat_lt]
      constructor
      · rintro (h | ⟨rfl, h⟩)
        · exact List.Lex.rel h
        · exact List.Lex.cons h
      · intro h
        cases h with
        | rel h => exact Or.inl h
        | cons h => exact Or.inr ⟨rfl, h⟩

theorem stringLess_iff (a b : String) : stringLess a b = true ↔ a < b := by
  unfold stringLess
  rw [lessChars_iff, String.lt_iff_toList_lt]
  rfl

theorem insertByUID_sorted (x : tocItem) (l : List tocItem)
    (h : l.Pairwise (fun a b => a.UID ≤ b.UID)) :
    (insertByUID x l).Pairwise (fun a b => a.UID ≤ b.UID) := by
  induction l with
  | nil => simp [insertByUID]
  | cons y ys ih =>
    unfold insertByUID
    obtain ⟨hy, hys⟩ := List.pairwise_cons.1 h
    by_cases hlt : stringLess x.UID y.UID = true
    · simp only [hlt, if_true]
      have hxy : x.UID < y.UID := (stringLess_iff _ _).1 hlt
      refine List.pairwise_cons.2 ⟨?_, h⟩
      intro z hz
      rcases List.mem_cons.1 hz with rfl | hz
      · exact le_of_lt hxy
      · exact le_trans (le_of_lt hxy) (hy z hz)
    · simp only [hlt, if_false, Bool.false_eq_true]
      have hyx : y.UID ≤ x.UID := not_lt.1 (fun hh => hlt ((stringLess_iff _ _).2 hh))
      refine List.pairwise_cons.2 ⟨?_, ih hys⟩
      intro z hz
      rcases List.mem_cons.1 ((insertByUID_perm x ys).mem_iff.1 hz) with rfl | hz
      · exact hyx
      · exact hy z hz

theorem foldl_insertByUID_sorted (l acc : List tocItem)
    (h : acc.Pairwise (fun a b => a.UID ≤ b.UID)) :
    (l.foldl (fun acc x => insertByUID x acc) acc).Pairwise (fun a b => a.UID ≤ b.UID) := by
  induction l generalizing acc with
  | nil => exact h
  | cons x xs ih => exact ih _ (insertByUID_sorted x acc h)

theorem sortByUID_sorted (l : List tocItem) :
    (sortByUID l).Pairwise (fun a b => a.UID ≤ b.UID) :=
  foldl_insertByUID_sorted l [] List.Pairwise.nil

theorem sortByUID_strict (l : List tocItem) (hnd : (l.map tocItem.UID).Nodup) :
    (sortByUID l).Pairwise (fun a b => a.UID < b.UID) := by
  have hnd2 : ((sortByUID l).map tocItem.UID).Nodup :=
    ((sortByUID_perm l).map tocItem.UID).nodup_iff.2 hnd
  have hne : (sortByUID l).Pairwise (fun a b => a.UID ≠ b.UID) :=
    List.pairwise_map.1 hnd2
  exact ((sortByUID_sorted l).and hne).imp (fun h => lt_of_le_of_ne h.1 h.2)

theorem entryTocs_uid (ns : String) (fs : List file) :
    ((allEntries ns fs).map (fun e => e.toc)).map tocItem.UID = typeNames fs := by
  rw [← allEntries_uid ns fs, List.map_map]
  apply List.map_congr_left
  intro e he
  obtain ⟨f, _, _, hf⟩ := (mem_allEntries ns fs e).1 he
  rcases (mem_fileEntries ns f e).1 hf with ⟨c, _, rfl⟩ | ⟨t, _, rfl⟩ | ⟨i, _, rfl⟩ <;> rfl

theorem append_trimPrefix (s pre : String) (h : HasPrefix s pre = true) :
    pre ++ TrimPrefix s pre = s := by
  have hp : pre.data <+: s.data := (hasPrefix_iff s pre).1 h
  apply String.ext
  simp only [TrimPrefix, h, if_true, String.data_append]
  exact List.prefix_iff_eq_append.1 hp

/-! ## C11 -/

/-- C11: TOC ordering.  Whenever `transform` succeeds, the children of the TOC
root are in strictly ascending lexicographic order of their UIDs: every child
has a UID smaller than the UID of every later child, in particular of the
next one (stated with the order of `String` and with the comparison
`stringLess` the sort uses), so no two children tie. -/
theorem toc_children_strictly_sorted (p : project) (ns : String) (pages : pageMap)
    (toc : tableOfContents) (h : transform p ns = .ok (pages, toc)) :
    ∀ root ∈ toc,
      root.Items.Pairwise (fun a b => a.UID < b.UID) ∧
      root.Items.Chain' (fun a b => a.UID < b.UID) ∧
      root.Items.Chain' (fun a b => stringLess a.UID b.UID = true) := by
  intro root hroot
  obtain ⟨_, hnd⟩ := transform_ok_inv p ns _ h
  obtain ⟨_, ht⟩ := transform_ok_eq p ns pages toc h
  rw [ht, List.mem_singleton] at hroot
  subst hroot
  have hs := sortByUID_strict ((allEntries ns p.Files).map (fun e => e.toc))
    (by rw [entryTocs_uid]; exact hnd)
  refine ⟨hs, hs.chain', ?_⟩
  exact hs.chain'.imp (fun _ _ hab => (stringLess_iff _ _).2 hab)

/-- C11 at `sampleProject`: the types are declared in the order `\NS\Foo`,
`\NS\Shared`, `\NS\Fooable` and listed as `\NS\Foo`, `\NS\Fooable`,
`\NS\Shared`. -/
theorem toc_children_strictly_sorted_witness :
    transform sampleProject "\\NS" = .ok (samplePages, sampleToc) ∧
    ∀ root ∈ sampleToc,
      root.Items.Pairwise (fun a b => a.UID < b.UID) ∧
      root.Items.Chain' (fun a b => a.UID < b.UID) ∧
      root.Items.Chain' (fun a b => stringLess a.UID b.UID = true) :=
  ⟨rfl, toc_children_strictly_sorted sampleProject "\\NS" samplePages sampleToc rfl⟩

/-! ## C12 -/

/-- C12: TOC content.  Whenever `transform p rootNamespace` succeeds, the TOC
is a single root whose Name is the root namespace and whose UID is empty; its
children are a permutation of the entries made for the classes, traits and
interfaces of the non-skipped files, one each, so that their UIDs are a
permutation of the type FullNames and of the keys of the pages map, without
repetition; and every child has no children of its own, a Name with
`rootNamespace ++ Name = UID`, and the UID and docblock status of a type
declared in a non-skipped file. -/
theorem toc_content (p : project) (ns : String) (pages : pageMap)
    (toc : tableOfContents) (h : transform p ns = .ok (pages, toc)) :
    ∃ root, toc = [root] ∧ root.Name = ns ∧ root.UID = "" ∧
      root.Items.Perm ((allEntries ns p.Files).map (fun e => e.toc)) ∧
      (root.Items.map tocItem.UID).Perm (typeNames p.Files) ∧
      (root.Items.map tocItem.UID).Perm pages.keys ∧
      (root.Items.map tocItem.UID).Nodup ∧
      ∀ c ∈ root.Items, c.Items = [] ∧ ns ++ c.Name = c.UID ∧
        ∃ f ∈ p.Files, HasPrefix f.Path "tests" = false ∧
          ((∃ k, f.Class = some k ∧ c.UID = k.FullName ∧
              c.Status = docblock.status k.Docblock) ∨
           (∃ t, f.Trait = some t ∧ c.UID = t.FullName ∧
              c.Status = docblock.status t.Docblock) ∨
           (∃ i, f.Interface = some i ∧ c.UID = i.FullName ∧
              c.Status = docblock.status i.Docblock)) := by
  obtain ⟨hs, hnd⟩ := transform_ok_inv p ns _ h
  obtain ⟨hp, ht⟩ := transform_ok_eq p ns pages toc h
  have hperm := sortByUID_perm ((allEntries ns p.Files).map (fun e => e.toc))
  have huid : ((sortByUID ((allEntries ns p.Files).map (fun e => e.toc))).map
      tocItem.UID).Perm (typeNames p.Files) := by
    have := hperm.map tocItem.UID
    rwa [entryTocs_uid] at this
  refine ⟨_, ht, rfl, rfl, hperm, huid, ?_, huid.nodup_iff.2 hnd, ?_⟩
  · rw [hp, entryPages_keys, allEntries_uid]; exact huid
  · intro c hc
    simp only [tocItem.Items] at hc
    obtain ⟨e, he, rfl⟩ := List.mem_map.1 (hperm.mem_iff.1 hc)
    have hscope : HasPrefix e.uid ns = true := by
      apply hs
      rw [← allEntries_uid ns]
      exact List.mem_map.2 ⟨e, he, rfl⟩
    obtain ⟨f, hf, hskip, hfe⟩ := (mem_allEntries ns p.Files e).1 he
    rcases (mem_fileEntries ns f e).1 hfe with ⟨k, hk, rfl⟩ | ⟨t, htr, rfl⟩ | ⟨i, hi, rfl⟩
    · exact ⟨rfl, append_trimPrefix _ _ hscope, f, hf, hskip, Or.inl ⟨k, hk, rfl, rfl⟩⟩
    · exact ⟨rfl, append_trimPrefix _ _ hscope, f, hf, hskip,
        Or.inr (Or.inl ⟨t, htr, rfl, rfl⟩)⟩
    · exact ⟨rfl, append_trimPrefix _ _ hscope, f, hf, hskip,
        Or.inr (Or.inr ⟨i, hi, rfl, rfl⟩)⟩

/-- C12 at `sampleProject`. -/
theorem toc_content_witness :
    transform sampleProject "\\NS" = .ok (samplePages, sampleToc) ∧
    ∃ root, sampleToc = [root] ∧ root.Name = "\\NS" ∧ root.UID = "" ∧
      root.Items.Perm ((allEntries "\\NS" sampleProject.Files).map (fun e => e.toc)) ∧
      (root.Items.map tocItem.UID).Perm (typeNames sampleProject.Files) ∧
      (root.Items.map tocItem.UID).Perm samplePages.keys ∧
      (root.Items.map tocItem.UID).Nodup ∧
      ∀ c ∈ root.Items, c.Items = [] ∧ "\\NS" ++ c.Name = c.UID ∧
        ∃ f ∈ sampleProject.Files, HasPrefix f.Path "tests" = false ∧
          ((∃ k, f.Class = some k ∧ c.UID = k.FullName ∧
              c.Status = docblock.status k.Docblock) ∨
           (∃ t, f.Trait = some t ∧ c.UID = t.FullName ∧
              c.Status = docblock.status t.Docblock) ∨
           (∃ i, f.Interface = some i ∧ c.UID = i.FullName ∧
              c.Status = docblock.status i.Docblock)) :=
  ⟨rfl, toc_content sampleProject "\\NS" samplePages sampleToc rfl⟩

/-! ## C14 -/

theorem transformFiles_filter (ns : String) (fs : List file) (st : transformState) :
    transformFiles ns (fs.filter (fun f => !HasPrefix f.Path "tests")) st =
      transformFiles ns fs st := by
  induction fs generalizing st with
  | nil => rfl
  | cons f fs ih =>
    by_cases hskip : HasPrefix f.Path "tests" = true
    · simp only [List.filter_cons, hskip, Bool.not_true, Bool.false_eq_true, if_false,
        transformFiles, if_true]
      exact ih st
    · have hskip2 : HasPrefix f.Path "tests" = false := by simpa using hskip
      simp only [List.filter_cons, hskip2, Bool.not_false, if_true, transformFiles,
        Bool.false_eq_true, if_false]
      cases fileStep ns f st with
      | error err => rfl
      | ok st1 => exact ih st1

/-- C14: files under the reserved test prefix are fully skipped.  For every
project and root namespace, `transform` returns the same result (the same
error, or the same pages map and the same TOC) as on the project with every
file whose Path starts with "tests" removed; so nothing inside such a file,
out of scope or duplicate, has any effect on the result. -/
theorem test_files_are_skipped (p : project) (ns : String) :
    transform p ns =
      transform { p with Files := p.Files.filter (fun f => !HasPrefix f.Path "tests") } ns := by
  simp only [transform, transformFiles_filter]

/-! ## C15 -/

/-- C15: `docblock.summary` concatenates the two descriptions.  For a docblock
with Description `D` and LongDescription `L` the summary is `D` when `L` is
empty, `L` when `D` is empty, and `D ++ "\n\n" ++ L` when both are non-empty;
for an absent docblock it is the empty string. -/
theorem summary_concatenates (d : docblock) :
    (d.LongDescription = "" → docblock.summary (some d) = d.Description) ∧
    (d.Description = "" → docblock.summary (some d) = d.LongDescription) ∧
    (d.Description ≠ "" → d.LongDescription ≠ "" →
      docblock.summary (some d) = d.Description ++ "\n\n" ++ d.LongDescription) ∧
    docblock.summary none = "" := by
  refine ⟨?_, ?_, ?_, rfl⟩
  · intro hL
    simp [docblock.summary, hL]
  · intro hD
    by_cases hL : d.LongDescription = ""
    · simp [docblock.summary, hL, hD]
    · simp only [docblock.summary, hD, ne_eq, hL, not_false_eq_true, if_true, not_true_eq_false,
        if_false]
      apply String.ext
      simp
  · intro hD hL
    simp [docblock.summary, hL, hD]

/-- C15 at three docblocks: short description only, long description only,
both. -/
theorem summary_concatenates_witness :
    (shortDocblock.LongDescription = "" ∧
      docblock.summary (some shortDocblock) = shortDocblock.Description) ∧
    (longDocblock.Description = "" ∧
      docblock.summary (some longDocblock) = longDocblock.LongDescription) ∧
    (fullDocblock.Description ≠ "" ∧ fullDocblock.LongDescription ≠ "" ∧
      docblock.summary (some fullDocblock) =
        fullDocblock.Description ++ "\n\n" ++ fullDocblock.LongDescription) :=
  ⟨⟨by decide, (summary_concatenates shortDocblock).1 (by decide)⟩,
   ⟨by decide, (summary_concatenates longDocblock).2.1 (by decide)⟩,
   ⟨by decide, by decide,
    (summary_concatenates fullDocblock).2.2.1 (by decide) (by decide)⟩⟩

/-! ## C16 -/

theorem statusLoop_values (ts : List tag) :
    statusLoop ts = "deprecated" ∨ statusLoop ts = "" := by
  induction ts with
  | nil => exact Or.inr rfl
  | cons t ts ih =>
    unfold statusLoop
    split
    · exact Or.inl rfl
    · exact ih

theorem statusLoop_iff (ts : List tag) :
    statusLoop ts = "deprecated" ↔ ∃ t ∈ ts, t.Name = "deprecated" := by
  induction ts with
  | nil => simp [statusLoop]
  | cons t ts ih =>
    unfold statusLoop
    by_cases h : t.Name = "deprecated"
    · simp [h]
    · simp [h, ih]

/-- C16: `docblock.status` is the deprecation flag.  It returns "deprecated"
if and only if the docblock is present and one of its tags has the Name
"deprecated"; it returns the empty string otherwise, in particular for an
absent docblock; and it returns no third value. -/
theorem status_is_deprecation_flag (d : Option docblock) :
    (docblock.status d = "deprecated" ↔
      ∃ b, d = some b ∧ ∃ t ∈ b.Tags, t.Name = "deprecated") ∧
    ((¬ ∃ b, d = some b ∧ ∃ t ∈ b.Tags, t.Name = "deprecated") → docblock.status d = "") ∧
    (docblock.status d = "deprecated" ∨ docblock.status d = "") := by
  have hiff : docblock.status d = "deprecated" ↔
      ∃ b, d = some b ∧ ∃ t ∈ b.Tags, t.Name = "deprecated" := by
    cases d with
    | none => simp [docblock.status]
    | some b => simp [docblock.status, statusLoop_iff]
  have hval : docblock.status d = "deprecated" ∨ docblock.status d = "" := by
    cases d with
    | none => exact Or.inr rfl
    | some b => exact statusLoop_values b.Tags
  refine ⟨hiff, ?_, hval⟩
  intro hno
  rcases hval with h | h
  · exact absurd (hiff.1 h) hno
  · exact h

/-- C16 at a docblock whose only tag is a `param` tag. -/
theorem status_is_deprecation_flag_witness :
    (¬ ∃ b, some paramDocblock = some b ∧ ∃ t ∈ b.Tags, t.Name = "deprecated") ∧
    docblock.status (some paramDocblock) = "" :=
  ⟨by simp [paramDocblock],
   (status_is_deprecation_flag (some paramDocblock)).2.1 (by simp [paramDocblock])⟩

/-! ## C17 -/

theorem foldl_snoc_map {α β : Type} (f : α → β) (l : List α) (init : List β) :
    l.foldl (fun acc a => acc ++ [f a]) init = init ++ l.map f := by
  induction l generalizing init with
  | nil => simp
  | cons a l ih => simp [List.foldl_cons, ih]

theorem paramLoop_eq (name : String) (ts : List tag) :
    paramLoop name ts =
      match ts.find? (fun t => decide (t.Name = "param" ∧ t.Variable = name)) with
      | none => ""
      | some t => t.Description := by
  induction ts with
  | nil => rfl
  | cons t ts ih =>
    unfold paramLoop
    by_cases h : t.Name = "param" ∧ t.Variable = name
    · simp [List.find?_cons, h]
    · simp only [h, if_false, List.find?_cons, decide_False]
      exact ih

theorem param_eq (m : method) (name : String) :
    docblock.param m.Docblock name = firstParamDescription m name := by
  unfold docblock.param firstParamDescription
  cases m.Docblock with
  | none => rfl
  | some d => exact paramLoop_eq name d.Tags

/-- C17: method parameter pairing.  For every method `m`, `arguments m` has
the length of `m.Arguments`, and its i-th parameter has the Name and the Type
of the i-th argument and, as Description, the Description of the first
docblock tag whose Name is "param" and whose Variable is the name of the
argument, or the empty string when there is no such tag or no docblock. -/
theorem arguments_pairing (m : method) :
    (arguments m).length = m.Arguments.length ∧
    ∀ i : Nat, (arguments m)[i]? =
      (m.Arguments[i]?).map (fun a =>
        { Name := a.Name, Type_ := a.Type_,
          Description := firstParamDescription m a.Name }) := by
  have h : arguments m = m.Arguments.map (fun a =>
      ({ Name := a.Name, Type_ := a.Type_,
         Description := firstParamDescription m a.Name } : parameter)) := by
    unfold arguments
    rw [foldl_snoc_map]
    simp [param_eq]
  rw [h]
  exact ⟨List.length_map _ _, fun i => List.getElem?_map _ _ _⟩

/-! ## C13 -/

/-- C13: the type-level item.  Whenever `transform` succeeds, the first item
of the page of every class, trait or interface of a non-skipped file has
UID = the FullName of the type, Name = ID = its Name, an empty Parent, the
summary and the status of its docblock (both empty without a docblock), the
Type "class", "trait" or "interface", and as Implements the list of the class
for a class and the empty list otherwise.  Scenario A: a project whose only
file is not skipped and declares nothing but the class `\NS\Foo`, without
members and without docblock, gives under the root `\NS` one page, keyed
`\NS\Foo`, with the class-level item as its only item, and a TOC root with the
single child named `\Foo` with UID `\NS\Foo`. -/
theorem type_level_item (p : project) (ns : String) :
    (∀ pages toc, transform p ns = .ok (pages, toc) →
      ∀ f ∈ p.Files, HasPrefix f.Path "tests" = false →
        (∀ c, f.Class = some c →
          ∃ owner rest, pages.get c.FullName = some { Items := owner :: rest } ∧
            owner.UID = c.FullName ∧ owner.Name = c.Name ∧ owner.ID = c.Name ∧
            owner.Parent = "" ∧ owner.Summary = docblock.summary c.Docblock ∧
            owner.Status = docblock.status c.Docblock ∧ owner.Type_ = "class" ∧
            owner.Implements = c.Implements) ∧
        (∀ t, f.Trait = some t →
          ∃ owner rest, pages.get t.FullName = some { Items := owner :: rest } ∧
            owner.UID = t.FullName ∧ owner.Name = t.Name ∧ owner.ID = t.Name ∧
            owner.Parent = "" ∧ owner.Summary = docblock.summary t.Docblock ∧
            owner.Status = docblock.status t.Docblock ∧ owner.Type_ = "trait" ∧
            owner.Implements = []) ∧
        (∀ i, f.Interface = some i →
          ∃ owner rest, pages.get i.FullName = some { Items := owner :: rest } ∧
            owner.UID = i.FullName ∧ owner.Name = i.Name ∧ owner.ID = i.Name ∧
            owner.Parent = "" ∧ owner.Summary = docblock.summary i.Docblock ∧
            owner.Status = docblock.status i.Docblock ∧ owner.Type_ = "interface" ∧
            owner.Implements = [])) ∧
    (docblock.summary none = "" ∧ docblock.status none = "") ∧
    (∀ f c, p.Files = [f] → ns = "\\NS" → HasPrefix f.Path "tests" = false →
      f.Class = some c → f.Trait = none → f.Interface = none →
      c.FullName = "\\NS\\Foo" → c.Docblock = none →
      c.Properties = [] → c.Methods = [] → c.Constants = [] →
      transform p ns = .ok
        ([("\\NS\\Foo",
            { Items := [{ UID := "\\NS\\Foo", Name := c.Name, ID := c.Name, Langs := ["php"],
                          Type_ := "class", Implements := c.Implements }] })],
         [tocItem.mk "" "\\NS" [tocItem.mk "\\NS\\Foo" "\\Foo" [] "" ""] "" ""])) := by
  refine ⟨?_, ⟨rfl, rfl⟩, ?_⟩
  · intro pages toc h f hf hskip
    refine ⟨?_, ?_, ?_⟩
    · intro c hc
      have hg := transform_ok_get p ns pages toc h _ (classEntry_mem ns p.Files f c hf hskip hc)
      rw [classEntry_pg] at hg
      exact ⟨_, _, hg, rfl, rfl, rfl, rfl, rfl, rfl, rfl, rfl⟩
    · intro t ht
      have hg := transform_ok_get p ns pages toc h _ (traitEntry_mem ns p.Files f t hf hskip ht)
      rw [traitEntry_pg] at hg
      exact ⟨_, _, hg, rfl, rfl, rfl, rfl, rfl, rfl, rfl, rfl⟩
    · intro i hi
      have hg := transform_ok_get p ns pages toc h _
        (interfaceEntry_mem ns p.Files f i hf hskip hi)
      rw [interfaceEntry_pg] at hg
      exact ⟨_, _, hg, rfl, rfl, rfl, rfl, rfl, rfl, rfl, rfl⟩
  · intro f c hfiles hns hskip hc ht hi hname hdoc hprops hmethods hconsts
    subst hns
    have hpre : HasPrefix "\\NS\\Foo" "\\NS" = true := by decide
    have htrim : TrimPrefix "\\NS\\Foo" "\\NS" = "\\Foo" := by decide
    simp [transform, hfiles, transformFiles, hskip, fileStep, hc, ht, hi, classStep, hname,
      hdoc, hprops, hmethods, hconsts, hpre, htrim, pageMap.has, pageMap.set, classItem,
      pageBuild.toPage, docblock.summary, docblock.status, onlyPHP, sortByUID, insertByUID,
      bind, pure, Except.bind, Except.pure]

/-- C13 at `sampleProject` (general part) and at `scenarioA` (Scenario A). -/
theorem type_level_item_witness :
    (transform sampleProject "\\NS" = .ok (samplePages, sampleToc) ∧
      ∀ f ∈ sampleProject.Files, HasPrefix f.Path "tests" = false →
        (∀ c, f.Class = some c →
          ∃ owner rest, samplePages.get c.FullName = some { Items := owner :: rest } ∧
            owner.UID = c.FullName ∧ owner.Name = c.Name ∧ owner.ID = c.Name ∧
            owner.Parent = "" ∧ owner.Summary = docblock.summary c.Docblock ∧
            owner.Status = docblock.status c.Docblock ∧ owner.Type_ = "class" ∧
            owner.Implements = c.Implements) ∧
        (∀ t, f.Trait = some t →
          ∃ owner rest, samplePages.get t.FullName = some { Items := owner :: rest } ∧
            owner.UID = t.FullName ∧ owner.Name = t.Name ∧ owner.ID = t.Name ∧
            owner.Parent = "" ∧ owner.Summary = docblock.summary t.Docblock ∧
            owner.Status = docblock.status t.Docblock ∧ owner.Type_ = "trait" ∧
            owner.Implements = []) ∧
        (∀ i, f.Interface = some i →
          ∃ owner rest, samplePages.get i.FullName = some { Items := owner :: rest } ∧
            owner.UID = i.FullName ∧ owner.Name = i.Name ∧ owner.ID = i.Name ∧
            owner.Parent = "" ∧ owner.Summary = docblock.summary i.Docblock ∧
            owner.Status = docblock.status i.Docblock ∧ owner.Type_ = "interface" ∧
            owner.Implements = [])) ∧
    transform scenarioA "\\NS" = .ok
      ([("\\NS\\Foo",
          { Items := [{ UID := "\\NS\\Foo", Name := "Foo", ID := "Foo", Langs := ["php"],
                        Type_ := "class", Implements := [] }] })],
       [tocItem.mk "" "\\NS" [tocItem.mk "\\NS\\Foo" "\\Foo" [] "" ""] "" ""]) :=
  ⟨⟨rfl, (type_level_item sampleProject "\\NS").1 samplePages sampleToc rfl⟩,
   (type_level_item scenarioA "\\NS").2.2 (classFile "src/Foo.php" "Foo" "\\NS\\Foo")
     { Name := "Foo", FullName := "\\NS\\Foo" } rfl rfl (by decide) rfl rfl rfl rfl rfl rfl rfl
     rfl⟩

/-! ## C19 -/

theorem entry_links (ns : String) (fs : List file) (e : typeEntry)
    (he : e ∈ allEntries ns fs) :
    ∃ owner rest, e.pg.Items = owner :: rest ∧ owner.UID = e.uid ∧ owner.Parent = "" ∧
      owner.Children = rest.map (fun it => it.UID) ∧
      ∀ it ∈ rest, it.Parent = e.uid ∧ (it.Type_ = "method" ∨ it.Type_ = "constant") := by
  obtain ⟨f, _, _, hf⟩ := (mem_allEntries ns fs e).1 he
  rcases (mem_fileEntries ns f e).1 hf with ⟨c, _, rfl⟩ | ⟨t, _, rfl⟩ | ⟨i, _, rfl⟩
  · rw [classEntry_pg]
    refine ⟨_, _, rfl, rfl, rfl, ?_, ?_⟩
    · simp [List.map_append, List.map_map, Function.comp_def, methodItem, constantItem]
    · intro it hit
      rcases List.mem_append.1 hit with h | h
      · obtain ⟨m, _, rfl⟩ := List.mem_map.1 h
        exact ⟨rfl, Or.inl rfl⟩
      · obtain ⟨k, _, rfl⟩ := List.mem_map.1 h
        exact ⟨rfl, Or.inr rfl⟩
  · rw [traitEntry_pg]
    refine ⟨_, _, rfl, rfl, rfl, ?_, ?_⟩
    · simp [List.map_map, Function.comp_def, methodItem]
    · intro it hit
      obtain ⟨m, _, rfl⟩ := List.mem_map.1 hit
      exact ⟨rfl, Or.inl rfl⟩
  · rw [interfaceEntry_pg]
    refine ⟨_, _, rfl, rfl, rfl, ?_, ?_⟩
    · simp [List.map_append, List.map_map, Function.comp_def, methodItem, constantItem]
    · intro it hit
      rcases List.mem_append.1 hit with h | h
      · obtain ⟨m, _, rfl⟩ := List.mem_map.1 h
        exact ⟨rfl, Or.inl rfl⟩
      · obtain ⟨k, _, rfl⟩ := List.mem_map.1 h
        exact ⟨rfl, Or.inr rfl⟩

theorem constant_items_of_methods (uid : String) (ms : List method) :
    ((ms.map (methodItem uid)).filter (fun it => decide (it.Type_ = "constant"))) = [] := by
  induction ms with
  | nil => rfl
  | cons m ms ih =>
    have hne : ¬ ("method" = "constant") := by decide
    simp only [List.map_cons, List.filter_cons, methodItem, hne, decide_False,
      Bool.false_eq_true, if_false]
    exact ih

theorem constant_items_of_constants (uid : String) (cs : List constant) :
    (((cs.map (constantItem uid)).filter (fun it => decide (it.Type_ = "constant"))).map
      (fun it => (it.UID, it.Syntax.Content))) = cs.map (fun k => (k.FullName, k.Value)) := by
  induction cs with
  | nil => rfl
  | cons k ks ih =>
    simp only [List.map_cons, List.filter_cons, constantItem, decide_True, if_true,
      List.cons.injEq, true_and]
    exact ih

/-- C19: parent/child linking is consistent on every page.  Whenever
`transform` succeeds, every page keyed `k` starts with an item of UID `k` and
empty Parent whose Children list is the list of the UIDs of the remaining
items of the page, in the same order, and every remaining item has Parent `k`
and Type "method" or "constant"; and on the page of a class or an interface
the items of Type "constant" are, in order, those of the constants with empty
InheritedFrom, each with the FullName of the constant as UID and its Value as
syntax content. -/
theorem page_links_consistent (p : project) (ns : String) (pages : pageMap)
    (toc : tableOfContents) (h : transform p ns = .ok (pages, toc)) :
    (∀ kv ∈ pages, ∃ owner rest, kv.2.Items = owner :: rest ∧
      owner.UID = kv.1 ∧ owner.Parent = "" ∧
      owner.Children = rest.map (fun it => it.UID) ∧
      ∀ it ∈ rest, it.Parent = kv.1 ∧ (it.Type_ = "method" ∨ it.Type_ = "constant")) ∧
    (∀ f ∈ p.Files, HasPrefix f.Path "tests" = false →
      (∀ c, f.Class = some c → ∃ pg, pages.get c.FullName = some pg ∧
        ((pg.Items.filter (fun it => decide (it.Type_ = "constant"))).map
          (fun it => (it.UID, it.Syntax.Content))) =
          (ownConstants c.Constants).map (fun k => (k.FullName, k.Value))) ∧
      (∀ i, f.Interface = some i → ∃ pg, pages.get i.FullName = some pg ∧
        ((pg.Items.filter (fun it => decide (it.Type_ = "constant"))).map
          (fun it => (it.UID, it.Syntax.Content))) =
          (ownConstants i.Constants).map (fun k => (k.FullName, k.Value)))) := by
  constructor
  · intro kv hkv
    obtain ⟨hp, _⟩ := transform_ok_eq p ns pages toc h
    rw [hp] at hkv
    obtain ⟨e, he, rfl⟩ := List.mem_map.1 hkv
    exact entry_links ns p.Files e he
  · intro f hf hskip
    constructor
    · intro c hc
      have hg := transform_ok_get p ns pages toc h _ (classEntry_mem ns p.Files f c hf hskip hc)
      refine ⟨_, hg, ?_⟩
      rw [classEntry_pg]
      have hne : ¬ ("class" = "constant") := by decide
      simp only [List.filter_cons, classItem, hne, decide_False, Bool.false_eq_true, if_false,
        List.filter_append, constant_items_of_methods, List.nil_append]
      exact constant_items_of_constants _ _
    · intro i hi
      have hg := transform_ok_get p ns pages toc h _
        (interfaceEntry_mem ns p.Files f i hf hskip hi)
      refine ⟨_, hg, ?_⟩
      rw [interfaceEntry_pg]
      have hne : ¬ ("interface" = "constant") := by decide
      simp only [List.filter_cons, interfaceItem, hne, decide_False, Bool.false_eq_true,
        if_false, List.filter_append, constant_items_of_methods, List.nil_append]
      exact constant_items_of_constants _ _

/-- C19 at `sampleProject`. -/
theorem page_links_consistent_witness :
    transform sampleProject "\\NS" = .ok (samplePages, sampleToc) ∧
    (∀ kv ∈ samplePages, ∃ owner rest, kv.2.Items = owner :: rest ∧
      owner.UID = kv.1 ∧ owner.Parent = "" ∧
      owner.Children = rest.map (fun it => it.UID) ∧
      ∀ it ∈ rest, it.Parent = kv.1 ∧ (it.Type_ = "method" ∨ it.Type_ = "constant")) ∧
    (∀ f ∈ sampleProject.Files, HasPrefix f.Path "tests" = false →
      (∀ c, f.Class = some c → ∃ pg, samplePages.get c.FullName = some pg ∧
        ((pg.Items.filter (fun it => decide (it.Type_ = "constant"))).map
          (fun it => (it.UID, it.Syntax.Content))) =
          (ownConstants c.Constants).map (fun k => (k.FullName, k.Value))) ∧
      (∀ i, f.Interface = some i → ∃ pg, samplePages.get i.FullName = some pg ∧
        ((pg.Items.filter (fun it => decide (it.Type_ = "constant"))).map
          (fun it => (it.UID, it.Syntax.Content))) =
          (ownConstants i.Constants).map (fun k => (k.FullName, k.Value)))) :=
  ⟨rfl, page_links_consistent sampleProject "\\NS" samplePages sampleToc rfl⟩

/-! ## C20 -/

/-- C20: class property entries use the first tag only.  Whenever `transform`
succeeds, for every class of a non-skipped file the Properties list of the
class-level item has exactly one entry per property with empty InheritedFrom,
in declaration order; the entry of such a property has the Name of the
property, the summary of its docblock as Description, and as Type the Type of
the first tag of the docblock whatever tags follow, the empty Type (and the
empty Description) when the property has no docblock, and the empty Type when
the docblock has no tag. -/
theorem class_properties_first_tag (p : project) (ns : String) (pages : pageMap)
    (toc : tableOfContents) (h : transform p ns = .ok (pages, toc))
    (f : file) (hf : f ∈ p.Files) (hskip : HasPrefix f.Path "tests" = false)
    (c : classDecl) (hc : f.Class = some c) :
    ∃ owner rest, pages.get c.FullName = some { Items := owner :: rest } ∧
      owner.UID = c.FullName ∧
      owner.Properties.length = (ownProperties c.Properties).length ∧
      (∀ n : Nat,
        owner.Properties[n]? = ((ownProperties c.Properties)[n]?).map propertyEntry) ∧
      (∀ q : property,
        (propertyEntry q).Name = q.Name ∧
        (propertyEntry q).Description = docblock.summary q.Docblock ∧
        (q.Docblock = none →
          (propertyEntry q).Type_ = "" ∧ (propertyEntry q).Description = "") ∧
        (∀ d, q.Docblock = some d → d.Tags = [] → (propertyEntry q).Type_ = "") ∧
        (∀ d t later, q.Docblock = some d → d.Tags = t :: later →
          (propertyEntry q).Type_ = t.Type_)) := by
  have hg := transform_ok_get p ns pages toc h _ (classEntry_mem ns p.Files f c hf hskip hc)
  rw [classEntry_pg] at hg
  refine ⟨_, _, hg, rfl, by simp, fun n => by simp, ?_⟩
  intro q
  refine ⟨rfl, ?_, ?_, ?_, ?_⟩
  · unfold propertyEntry
    cases q.Docblock <;> rfl
  · intro hnone
    simp [propertyEntry, hnone]
  · intro d hd htags
    simp [propertyEntry, hd, htags]
  · intro d t later hd htags
    simp [propertyEntry, hd, htags]

/-- C20 at `propertyProject`, whose class has a property with two tags of
different types, a property without docblock, a property whose docblock has
no tag, and an inherited property. -/
theorem class_properties_first_tag_witness :
    transform propertyProject "\\NS" = .ok (propertyPages, propertyToc) ∧
    propertyFile ∈ propertyProject.Files ∧ HasPrefix propertyFile.Path "tests" = false ∧
    propertyFile.Class = some propertyClass ∧
    ∃ owner rest, propertyPages.get propertyClass.FullName = some { Items := owner :: rest } ∧
      owner.UID = propertyClass.FullName ∧
      owner.Properties.length = (ownProperties propertyClass.Properties).length ∧
      (∀ n : Nat, owner.Properties[n]? =
          ((ownProperties propertyClass.Properties)[n]?).map propertyEntry) ∧
      (∀ q : property,
        (propertyEntry q).Name = q.Name ∧
        (propertyEntry q).Description = docblock.summary q.Docblock ∧
        (q.Docblock = none →
          (propertyEntry q).Type_ = "" ∧ (propertyEntry q).Description = "") ∧
        (∀ d, q.Docblock = some d → d.Tags = [] → (propertyEntry q).Type_ = "") ∧
        (∀ d t later, q.Docblock = some d → d.Tags = t :: later →
          (propertyEntry q).Type_ = t.Type_)) :=
  ⟨rfl, by decide, by decide, rfl,
   class_properties_first_tag propertyProject "\\NS" propertyPages propertyToc rfl
     propertyFile (by decide) (by decide) propertyClass rfl⟩

/-! ## C18 -/

theorem char_eq_of_toNat (c d : Char) (h : c.toNat = d.toNat) : c = d := by
  apply Char.ext
  apply UInt32.ext
  exact h

theorem utf8Char_ne_nil (c : Char) : ∃ b bs, utf8Char c = b :: bs := by
  unfold utf8Char
  simp only
  split
  · exact ⟨_, _, rfl⟩
  · split
    · exact ⟨_, _, rfl⟩
    · split
      · exact ⟨_, _, rfl⟩
      · exact ⟨_, _, rfl⟩

theorem utf8_cons (c : Char) (rest : List Char) :
    utf8 (String.mk (c :: rest)) = utf8Char c ++ utf8 (String.mk rest) := by
  simp [utf8]

theorem utf8_append (a b : String) : utf8 (a ++ b) = utf8 a ++ utf8 b := by
  simp [utf8]

theorem utf8Char_dotted (c : Char) :
    replaceBackslashes (utf8Char c) = utf8Char (if c = '\\' then '.' else c) := by
  by_cases hc : c = '\\'
  · subst hc; decide
  · have hn : c.toNat ≠ 92 := fun h => hc (char_eq_of_toNat c '\\' h)
    simp only [hc, if_false, utf8Char, replaceBackslashes]
    split
    · simp [hn]
    · split
      · simp; omega
      · split
        · simp; omega
        · simp; omega

theorem utf8_dotted (s : String) : replaceBackslashes (utf8 s) = utf8 (dotted s) := by
  have h : ∀ l : List Char, replaceBackslashes ((l.map utf8Char).flatten) =
      ((l.map (fun c => if c = '\\' then '.' else c)).map utf8Char).flatten := by
    intro l
    induction l with
    | nil => rfl
    | cons c l ih =>
      simp only [List.map_cons, List.flatten_cons]
      rw [← ih, ← utf8Char_dotted]
      simp [replaceBackslashes]
  exact h s.data

theorem scoped_key_split (ns u : String) (hs : HasPrefix u ns = true) (hne : u ≠ ns) :
    ∃ c rest, u.data = ns.data ++ c :: rest ∧ TrimPrefix u ns = String.mk (c :: rest) := by
  obtain ⟨t, ht⟩ := (hasPrefix_iff u ns).1 hs
  cases t with
  | nil =>
    exfalso
    apply hne
    apply String.ext
    rw [← ht, List.append_nil]
  | cons c rest =>
    refine ⟨c, rest, ht.symm, ?_⟩
    have hdrop : u.data.drop ns.data.length = c :: rest := by
      rw [← ht, List.drop_left]
    simp only [TrimPrefix, hs, if_true, hdrop]

theorem pagePath_of_scoped (join : List Nat → List Nat → List Nat) (outDir ns u : String)
    (hs : HasPrefix u ns = true) (hne : u ≠ ns) :
    ∃ c rest, u.data = ns.data ++ c :: rest ∧
      pagePath join outDir ns u =
        some (join (utf8 outDir)
          (replaceBackslashes ((utf8Char c).tail ++ utf8 (String.mk rest)) ++ utf8 ".yml")) := by
  obtain ⟨c, rest, hdata, htrim⟩ := scoped_key_split ns u hs hne
  obtain ⟨b, bs, hb⟩ := utf8Char_ne_nil c
  refine ⟨c, rest, hdata, ?_⟩
  simp [pagePath, hne, htrim, sliceFromOne, utf8_cons, hb]

theorem pagePath_of_separator (join : List Nat → List Nat → List Nat)
    (outDir ns rest : String) :
    pagePath join outDir ns (ns ++ "\\" ++ rest) =
      some (join (utf8 outDir) (utf8 (dotted rest ++ ".yml"))) := by
  have hdata : (ns ++ "\\" ++ rest).data = ns.data ++ '\\' :: rest.data := by
    simp [String.data_append]
  have hs : HasPrefix (ns ++ "\\" ++ rest) ns = true := by
    rw [hasPrefix_iff, hdata]
    exact List.prefix_append _ _
  have hne : ns ++ "\\" ++ rest ≠ ns := by
    intro he
    have := congrArg (fun s => s.data.length) he
    simp [String.data_append] at this
  obtain ⟨c, r, hd, hp⟩ := pagePath_of_scoped join outDir ns _ hs hne
  rw [hdata] at hd
  obtain ⟨hc, hr⟩ := List.cons.inj (List.append_cancel_left hd)
  subst hc
  subst hr
  rw [hp]
  have h92 : (utf8Char '\\').tail = [] := by decide
  rw [h92, List.nil_append, utf8_dotted, utf8_append]

/-- The slice `path[1:]` drops a byte, not a character: for the key `\NSé\Foo`
under the root `\NS` the remainder `é\Foo` loses the first of the two bytes of
`é` (195, 169), and the file name starts with the byte 169. -/
theorem pagePath_drops_one_byte :
    sliceFromOne (TrimPrefix "\\NS\u00e9\\Foo" "\\NS") = some (169 :: utf8 "\\Foo") ∧
    pagePath joinSlash "out" "\\NS" "\\NS\u00e9\\Foo" =
      some (utf8 "out/" ++ 169 :: utf8 ".Foo.yml") :=
  ⟨by decide, by decide⟩

/-- C18, as stated, fails on `nestedProject`: for the page UID `\NS\Sub\Foo`
under the root `\NS` and the output directory `out`, the backslash between
`Sub` and `Foo` becomes a dot, not a path separator: the path is
`out/Sub.Foo.yml`, neither `out/Sub/Foo.yml` nor `out/Sub\Foo.yml`. -/
theorem page_path_separator_counterexample :
    transform nestedProject "\\NS" = .ok (nestedPages, nestedToc) ∧
    "\\NS\\Sub\\Foo" ∈ nestedPages.keys ∧
    pagePath joinSlash "out" "\\NS" "\\NS\\Sub\\Foo" = some (utf8 "out/Sub.Foo.yml") ∧
    pagePath joinSlash "out" "\\NS" "\\NS\\Sub\\Foo" ≠ some (utf8 "out/Sub/Foo.yml") ∧
    pagePath joinSlash "out" "\\NS" "\\NS\\Sub\\Foo" ≠ some (utf8 "out/Sub\\Foo.yml") :=
  ⟨rfl, by decide, by decide, by decide, by decide⟩

/-- C18, amended: page file path derivation.  For every page UID `u` of a
successful `transform` with root namespace `ns`: when `u` is `ns` itself,
`write` uses the file name "index.yml"; otherwise `u` is `ns` followed by at
least one character; and when `u` is `ns`, the namespace separator and a rest,
`write` uses the path that `filepath.Join` makes of the output directory and
the file name made of that rest with every backslash replaced by a dot,
followed by ".yml".  Nothing is said of the keys whose remainder begins with
another character. -/
theorem page_path_derivation (p : project) (ns : String) (pages : pageMap)
    (toc : tableOfContents) (h : transform p ns = .ok (pages, toc))
    (join : List Nat → List Nat → List Nat) (outDir u : String) (hu : u ∈ pages.keys) :
    (u = ns → pagePath join outDir ns u = some (utf8 "index.yml")) ∧
    (u ≠ ns → ∃ (c : Char) (rest : String), u = ns ++ String.singleton c ++ rest) ∧
    (∀ rest : String, u = ns ++ "\\" ++ rest →
      pagePath join outDir ns u =
        some (join (utf8 outDir) (utf8 (dotted rest ++ ".yml")))) := by
  refine ⟨?_, ?_, ?_⟩
  · intro he
    simp [pagePath, he]
  · intro hne
    obtain ⟨hs, _⟩ := transform_ok_inv p ns _ h
    obtain ⟨hp, _⟩ := transform_ok_eq p ns pages toc h
    rw [hp, entryPages_keys, allEntries_uid] at hu
    obtain ⟨c, rest, hdata, _⟩ := scoped_key_split ns u (hs u hu) hne
    refine ⟨c, String.mk rest, ?_⟩
    apply String.ext
    simp [String.data_append, hdata, String.singleton]
  · intro rest he
    rw [he]
    exact pagePath_of_separator join outDir ns rest

/-- C18 (amended) at `rootClassProject`, whose page UID is the root namespace,
and at `nestedProject`, whose page UID is `\NS\Sub\Foo`. -/
theorem page_path_derivation_witness :
    (transform rootClassProject "\\NS" = .ok (rootClassPages, rootClassToc) ∧
      "\\NS" ∈ rootClassPages.keys ∧
      pagePath joinSlash "out" "\\NS" "\\NS" = some (utf8 "index.yml")) ∧
    (transform nestedProject "\\NS" = .ok (nestedPages, nestedToc) ∧
      "\\NS\\Sub\\Foo" ∈ nestedPages.keys ∧ "\\NS\\Sub\\Foo" ≠ "\\NS" ∧
      (∃ (c : Char) (rest : String), "\\NS\\Sub\\Foo" = "\\NS" ++ String.singleton c ++ rest) ∧
      "\\NS\\Sub\\Foo" = "\\NS" ++ "\\" ++ "Sub\\Foo" ∧
      pagePath joinSlash "out" "\\NS" "\\NS\\Sub\\Foo" =
        some (joinSlash (utf8 "out") (utf8 (dotted "Sub\\Foo" ++ ".yml")))) :=
  ⟨⟨rfl, by decide,
    (page_path_derivation rootClassProject "\\NS" rootClassPages rootClassToc rfl joinSlash
      "out" "\\NS" (by decide)).1 rfl⟩,
   ⟨rfl, by decide, by decide,
    (page_path_derivation nestedProject "\\NS" nestedPages nestedToc rfl joinSlash
      "out" "\\NS\\Sub\\Foo" (by decide)).2.1 (by decide),
    by decide,
    (page_path_derivation nestedProject "\\NS" nestedPages nestedToc rfl joinSlash
      "out" "\\NS\\Sub\\Foo" (by decide)).2.2 "Sub\\Foo" (by decide)⟩⟩

/-! ## C21 -/

/-- C21 at the input `siblingProject` with root namespace `\NS`: the class
`\NSX\Foo` passes the scope check, `transform` succeeds with the page key
`\NSX\Foo`, the remainder after stripping `\NS` is `X\Foo`, which begins with
`X` and not with the separator, and `write` drops that `X`: the page goes to
`out/.Foo.yml`. -/
theorem leading_separator_failing_input :
    transform siblingProject "\\NS" = .ok (siblingPages, siblingToc) ∧
    "\\NSX\\Foo" ∈ siblingPages.keys ∧ "\\NSX\\Foo" ≠ "\\NS" ∧
    TrimPrefix "\\NSX\\Foo" "\\NS" = "X\\Foo" ∧
    (TrimPrefix "\\NSX\\Foo" "\\NS").data.head? = some 'X' ∧
    sliceFromOne (TrimPrefix "\\NSX\\Foo" "\\NS") = some (utf8 "\\Foo") ∧
    pagePath joinSlash "out" "\\NS" "\\NSX\\Foo" = some (utf8 "out/.Foo.yml") :=
  ⟨rfl, by decide, by decide, by decide, by decide, by decide, by decide⟩

/-! ## C22 -/

theorem allEntries_perm (ns : String) {a b : List file} (h : a.Perm b) :
    (allEntries ns a).Perm (allEntries ns b) := by
  induction h with
  | nil => exact List.Perm.refl _
  | cons x _ ih =>
    unfold allEntries
    split
    · exact ih
    · exact ih.append_left _
  | swap x y l =>
    cases hx : HasPrefix x.Path "tests" <;> cases hy : HasPrefix y.Path "tests"
    · simp only [allEntries, hx, hy, Bool.false_eq_true, if_false]
      rw [← List.append_assoc, ← List.append_assoc]
      exact List.perm_append_comm.append_right _
    · simp only [allEntries, hx, hy, Bool.false_eq_true, if_false, if_true]
      exact List.Perm.refl _
    · simp only [allEntries, hx, hy, Bool.false_eq_true, if_false, if_true]
      exact List.Perm.refl _
    · simp only [allEntries, hx, hy, if_true]
      exact List.Perm.refl _
  | trans _ _ ih1 ih2 => exact ih1.trans ih2

theorem pageMap_get_mem (m : pageMap) (k : String) (pg : page) (h : m.get k = some pg) :
    (k, pg) ∈ m := by
  induction m with
  | nil => cases h
  | cons kv rest ih =>
    unfold pageMap.get at h
    by_cases hk : kv.1 = k
    · simp only [hk, if_true, Option.some.injEq] at h
      subst hk
      subst h
      exact List.mem_cons_self _ _
    · simp only [hk, if_false] at h
      exact List.mem_cons_of_mem _ (ih h)

theorem pageMap_get_none (m : pageMap) (k : String) (h : m.get k = none) : k ∉ m.keys := by
  induction m with
  | nil => simp [pageMap.keys]
  | cons kv rest ih =>
    unfold pageMap.get at h
    by_cases hk : kv.1 = k
    · simp [hk] at h
    · simp only [hk, if_false] at h
      simp only [pageMap.keys, List.map_cons, List.mem_cons, not_or]
      exact ⟨fun e => hk e.symm, ih h⟩

theorem pageMap_get_none_of_not_mem (m : pageMap) (k : String) (h : k ∉ m.keys) :
    m.get k = none := by
  cases hg : m.get k with
  | none => rfl
  | some pg =>
    exact absurd (List.mem_map.2 ⟨(k, pg), pageMap_get_mem m k pg hg, rfl⟩) h

theorem pageMap_get_perm (m1 m2 : pageMap) (hp : m1.Perm m2) (hnd : m1.keys.Nodup)
    (k : String) : m1.get k = m2.get k := by
  have hkeys : m1.keys.Perm m2.keys := hp.map Prod.fst
  cases hg : m2.get k with
  | none =>
    apply pageMap_get_none_of_not_mem
    intro hm
    exact pageMap_get_none m2 k hg (hkeys.mem_iff.1 hm)
  | some pg =>
    exact pageMap_get_of_mem m1 k pg hnd (hp.mem_iff.2 (pageMap_get_mem m2 k pg hg))

theorem sortByUID_congr (l1 l2 : List tocItem) (hp : l1.Perm l2)
    (hnd : (l1.map tocItem.UID).Nodup) : sortByUID l1 = sortByUID l2 := by
  have hnd2 : (l2.map tocItem.UID).Nodup := (hp.map tocItem.UID).nodup_iff.1 hnd
  haveI : IsAntisymm tocItem (fun a b => a.UID < b.UID) :=
    ⟨fun _ _ h1 h2 => absurd h1 (lt_asymm h2)⟩
  exact List.eq_of_perm_of_sorted
    (((sortByUID_perm l1).trans hp).trans (sortByUID_perm l2).symm)
    (sortByUID_strict l1 hnd) (sortByUID_strict l2 hnd2)

/-- C22: the output does not depend on the order of the input files.  If
`transform` succeeds on `p` and the file list of `q` is a permutation of that
of `p`, then `transform` succeeds on `q` with the same TOC (the same root with
the same children in the same order) and the same pages map: the same entries
(the association lists are permutations of each other, without repeated key)
and the same page under every key. -/
theorem transform_order_independent (p q : project) (ns : String) (pages : pageMap)
    (toc : tableOfContents) (h : transform p ns = .ok (pages, toc))
    (hperm : q.Files.Perm p.Files) :
    ∃ pages2, transform q ns = .ok (pages2, toc) ∧
      pages2.Perm pages ∧ pages2.keys.Nodup ∧ pages2.len = pages.len ∧
      ∀ k, pages2.get k = pages.get k := by
  obtain ⟨hs, hnd⟩ := transform_ok_inv p ns _ h
  obtain ⟨hp, ht⟩ := transform_ok_eq p ns pages toc h
  have he : (allEntries ns q.Files).Perm (allEntries ns p.Files) := allEntries_perm ns hperm
  have hn : (typeNames q.Files).Perm (typeNames p.Files) := by
    rw [← allEntries_uid ns, ← allEntries_uid ns]
    exact he.map _
  have hs2 : ∀ n ∈ typeNames q.Files, HasPrefix n ns = true :=
    fun n hn2 => hs n (hn.mem_iff.1 hn2)
  have hnd2 : (typeNames q.Files).Nodup := hn.nodup_iff.2 hnd
  have hpages : ((allEntries ns q.Files).map (fun e => (e.uid, e.pg))).Perm pages := by
    rw [hp]; exact he.map _
  have hkeys : (pageMap.keys ((allEntries ns q.Files).map (fun e => (e.uid, e.pg)))).Nodup := by
    rw [entryPages_keys, allEntries_uid]; exact hnd2
  refine ⟨_, ?_, hpages, hkeys, hpages.length_eq, pageMap_get_perm _ _ hpages hkeys⟩
  rw [transform_ok_of q ns hs2 hnd2, ht]
  congr 4
  apply sortByUID_congr
  · exact he.map _
  · rw [entryTocs_uid]; exact hnd2

/-- C22 at `sampleProject` and the same files in the opposite order. -/
theorem transform_order_independent_witness :
    transform sampleProject "\\NS" = .ok (samplePages, sampleToc) ∧
    sampleReversed.Files.Perm sampleProject.Files ∧
    ∃ pages2, transform sampleReversed "\\NS" = .ok (pages2, sampleToc) ∧
      pages2.Perm samplePages ∧ pages2.keys.Nodup ∧ pages2.len = samplePages.len ∧
      ∀ k, pages2.get k = samplePages.get k :=
  ⟨rfl, List.reverse_perm _,
   transform_order_independent sampleProject sampleReversed "\\NS" samplePages sampleToc rfl
     (List.reverse_perm _)⟩

/-! ## C23 -/

/-- C23: the path slicing in `write` cannot go out of range on the output of
`transform`.  For every pages map returned by a successful `transform p ns`
and every key `u` of it other than `ns`, the string left after stripping the
prefix `ns` from `u` is not empty (it has at least one character, hence at
least one byte), so the slice `path[1:]` is within bounds and `write` computes
a path for the page. -/
theorem page_path_slice_in_bounds (p : project) (ns : String) (pages : pageMap)
    (toc : tableOfContents) (h : transform p ns = .ok (pages, toc))
    (u : String) (hu : u ∈ pages.keys) (hne : u ≠ ns) :
    TrimPrefix u ns ≠ "" ∧ 0 < (TrimPrefix u ns).length ∧
    0 < (utf8 (TrimPrefix u ns)).length ∧
    (sliceFromOne (TrimPrefix u ns)).isSome = true ∧
    ∀ (join : List Nat → List Nat → List Nat) (outDir : String),
      (pagePath join outDir ns u).isSome = true := by
  obtain ⟨hs, _⟩ := transform_ok_inv p ns _ h
  obtain ⟨hp, _⟩ := transform_ok_eq p ns pages toc h
  rw [hp, entryPages_keys, allEntries_uid] at hu
  have hsu := hs u hu
  obtain ⟨t, ht⟩ := (hasPrefix_iff u ns).1 hsu
  have hdrop : u.data.drop ns.data.length = t := by
    rw [← ht, List.drop_left]
  have htrim : TrimPrefix u ns = String.mk t := by
    simp only [TrimPrefix, hsu, if_true, hdrop]
  cases t with
  | nil =>
    exfalso
    apply hne
    apply String.ext
    rw [← ht, List.append_nil]
  | cons c rest =>
    rw [htrim]
    obtain ⟨b, bs, hb⟩ := utf8Char_ne_nil c
    refine ⟨?_, ?_, ?_, ?_, ?_⟩
    · intro he
      have := congrArg String.data he
      simp at this
    · simp [String.length]
    · simp [utf8_cons, hb]
    · simp [sliceFromOne, utf8_cons, hb]
    · intro join outDir
      obtain ⟨_, _, _, hpath⟩ := pagePath_of_scoped join outDir ns u hsu hne
      rw [hpath]; rfl

/-- C23 at `nestedProject`: the key `\NS\Sub\Foo` under the root `\NS`. -/
theorem page_path_slice_in_bounds_witness :
    transform nestedProject "\\NS" = .ok (nestedPages, nestedToc) ∧
    "\\NS\\Sub\\Foo" ∈ nestedPages.keys ∧ "\\NS\\Sub\\Foo" ≠ "\\NS" ∧
    TrimPrefix "\\NS\\Sub\\Foo" "\\NS" ≠ "" ∧
    0 < (TrimPrefix "\\NS\\Sub\\Foo" "\\NS").length ∧
    0 < (utf8 (TrimPrefix "\\NS\\Sub\\Foo" "\\NS")).length ∧
    (sliceFromOne (TrimPrefix "\\NS\\Sub\\Foo" "\\NS")).isSome = true ∧
    ∀ (join : List Nat → List Nat → List Nat) (outDir : String),
      (pagePath join outDir "\\NS" "\\NS\\Sub\\Foo").isSome = true :=
  ⟨rfl, by decide, by decide,
   page_path_slice_in_bounds nestedProject "\\NS" nestedPages nestedToc rfl
     "\\NS\\Sub\\Foo" (by decide) (by decide)⟩

end Phpdocyaml
